import Mathlib

/-!
Shallow embedding of `quinn-proto/src/connection/assembler.rs`: the `Assembler`
that reassembles an ordered byte stream from out-of-order, overlapping and
duplicated fragments, together with theorems checking the natural-language
specification against it.

Modelling conventions:
* `Bytes` values are `List Nat` (byte values); `u64`/`usize` become `Nat`.
  Every subtraction in the source is guarded so that it cannot underflow, hence
  truncated `Nat` subtraction agrees with the machine arithmetic.
* The `BinaryHeap<Buffer>` is modelled as a list kept sorted by the source's
  `Ord for Buffer`: ascending `offset`, ties broken toward the longer fragment
  (the heap's maximum, i.e. the element `peek` returns, is the head).  Pushes
  insert after existing elements that compare equal; the Rust heap leaves the
  order of equal elements unspecified, so this is one deterministic refinement
  of it.  `into_sorted_vec().into_iter().rev()` of the heap is exactly this
  list read from the head.
* The defragmentation trigger is computed in `f32` in the source
  (`over_allocation > max(buffered * 1.5, 4096.0)`); we model the comparison in
  exact integer arithmetic, multiplied through by 2.  For the magnitudes
  appearing in every concrete statement below the `f32` computation is exact,
  so the two agree there.
-/

/-- Modelled from the spec: the repository's interval-set collaborator
(`quinn-proto/src/range_set.rs`, spec sections 2 and 6) is not among the given
sources.  Following the spec it is "a set of disjoint half-open integer ranges
supporting insertion and insert-returning-the-set-of-previously-overlapping
ranges", represented here as a sorted list of disjoint, non-empty, non-adjacent
half-open ranges. -/
abbrev RangeSet := List (Nat × Nat)

/-- Modelled from the spec: union a (possibly empty) half-open range into the
set, merging overlapping and adjacent ranges so the representation stays
canonical. -/
def RangeSet.insertRange : RangeSet → Nat → Nat → RangeSet
  | [], a, b => [(a, b)]
  | (x, y) :: rest, a, b =>
    if y < a then (x, y) :: RangeSet.insertRange rest a b
    else if b < x then (a, b) :: (x, y) :: rest
    else RangeSet.insertRange rest (min a x) (max b y)

/-- Modelled from the spec: insert a range, guarding the empty case. -/
def RangeSet.insertR (rs : RangeSet) (a b : Nat) : RangeSet :=
  if a < b then RangeSet.insertRange rs a b else rs

/-- Modelled from the spec: the portions of the previously-seen ranges that
intersect `[a, b)`, clipped to `[a, b)`, in ascending order. -/
def RangeSet.overlapsIn : RangeSet → Nat → Nat → List (Nat × Nat)
  | [], _, _ => []
  | p :: rest, a, b =>
    if max p.1 a < min p.2 b then
      (max p.1 a, min p.2 b) :: RangeSet.overlapsIn rest a b
    else RangeSet.overlapsIn rest a b

/-- Modelled from the spec: `replace` records `[a, b)` as seen and returns the
previously-seen overlapping portions for deduplication. -/
def RangeSet.replace (rs : RangeSet) (a b : Nat) : List (Nat × Nat) × RangeSet :=
  (RangeSet.overlapsIn rs a b, RangeSet.insertR rs a b)

/-- One stored fragment (`struct Buffer` in the source): an offset-tagged byte
view annotated with its usable length at push time (`size`) and the size of the
backing allocation it was sliced from. -/
structure Buffer where
  offset : Nat
  bytes : List Nat
  size : Nat
  allocation_size : Nat
deriving DecidableEq, Repr

/-- A chunk of data handed to the consumer (`struct Chunk` in the source). -/
structure Chunk where
  offset : Nat
  bytes : List Nat
deriving DecidableEq, Repr

/-- Error for an ordered read requested after the stream committed to
unordered mode (`struct IllegalOrderedRead`). -/
structure IllegalOrderedRead where
deriving DecidableEq, Repr

/-- Mode flag of the assembler (`enum State` in the source): ordered, or
unordered together with the interval set of byte ranges ever seen. -/
inductive State where
  | ordered : State
  | unordered (recvd : RangeSet) : State
deriving DecidableEq, Repr

/-- Whether the mode is the ordered one (`State::is_ordered`). -/
def State.isOrdered : State → Bool
  | .ordered => true
  | .unordered _ => false

/-- The assembler (`struct Assembler`): mode, fragment store (the heap,
modelled as a sorted list, head = heap maximum = minimum offset), the useful
and allocated byte counters, and the count of bytes read by the application. -/
structure Assembler where
  state : State
  data : List Buffer
  buffered : Nat
  allocated : Nat
  bytes_read : Nat
deriving DecidableEq, Repr

/-- A fresh assembler (`Assembler::new`, i.e. `Default`): ordered mode, empty
store, zero counters. -/
def Assembler.new : Assembler := ⟨.ordered, [], 0, 0, 0⟩

/-- Heap priority from `Ord for Buffer`, reversed so that `a.before b` says
`a` surfaces strictly before `b`: smaller offset first, at equal offsets the
longer fragment first. -/
def Buffer.before (a b : Buffer) : Bool :=
  a.offset < b.offset || (a.offset == b.offset && b.bytes.length < a.bytes.length)

/-- Push onto the heap: insert into the sorted list, after any element with
equal priority. -/
def heapPush (b : Buffer) : List Buffer → List Buffer
  | [] => [b]
  | c :: rest => if b.before c then b :: c :: rest else c :: heapPush b rest

/-- Advance a buffer's view past `start` already-consumed bytes in place
(the `if start > 0 { chunk.bytes.advance(start); chunk.offset += start }` step
of `Assembler::read`). -/
def trimBuffer (b : Buffer) (start : Nat) : Buffer :=
  if 0 < start then { b with offset := b.offset + start, bytes := b.bytes.drop start } else b

/-- Common tail of `Assembler::read` once a deliverable fragment `b` is at the
top of the heap (`rest` is the remainder of the store): split off `max_length`
bytes if the fragment is longer, otherwise pop it whole.  Returns the chunk and
the new store, `buffered`, `allocated` and `bytes_read` values. -/
def readFinish (max_length : Nat) (br buf alc : Nat) (b : Buffer) (rest : List Buffer) :
    Option Chunk × List Buffer × Nat × Nat × Nat :=
  if max_length < b.bytes.length then
    (some ⟨b.offset, b.bytes.take max_length⟩,
      heapPush { b with offset := b.offset + max_length, bytes := b.bytes.drop max_length } rest,
      buf, alc, br + max_length)
  else
    (some ⟨b.offset, b.bytes⟩, rest, buf - b.size, alc - b.allocation_size,
      br + b.bytes.length)

/-- The loop of `Assembler::read` over the store: in ordered mode, stop at a
gap, lazily drop fully-stale fragments, trim a stale prefix in place; then
deliver via `readFinish`. -/
def readGo (max_length : Nat) (ordered : Bool) (br : Nat) :
    Nat → Nat → List Buffer → Option Chunk × List Buffer × Nat × Nat × Nat
  | buf, alc, [] => (none, [], buf, alc, br)
  | buf, alc, b :: rest =>
    if ordered then
      if br < b.offset then (none, b :: rest, buf, alc, br)
      else if b.offset + b.bytes.length ≤ br then
        readGo max_length ordered br (buf - b.size) (alc - b.allocation_size) rest
      else
        readFinish max_length br buf alc (trimBuffer b (br - b.offset)) rest
    else
      readFinish max_length br buf alc b rest

/-- Get the next chunk (`Assembler::read`). -/
def Assembler.read (s : Assembler) (max_length : Nat) (ordered : Bool) :
    Option Chunk × Assembler :=
  let r := readGo max_length ordered s.bytes_read s.buffered s.allocated s.data
  (r.1, { s with data := r.2.1, buffered := r.2.2.1, allocated := r.2.2.2.1,
                 bytes_read := r.2.2.2.2 })

/-- One step of the defragmentation pass (`Assembler::defragment` loop body).
The accumulator holds the scratch window offset, the scratch buffer, and the
fragments already pushed back.  A wasteful fragment (`size < allocation_size`)
that overlaps or abuts the window appends only the tail of its bytes past the
window end (appending nothing when the window already extends past the
fragment, where the source's `get(overlap..)` returns `None` or an empty
slice); at a gap the window is flushed as a tightly-sized fragment; a tight
fragment is pushed back unchanged without flushing the window. -/
def defragStep : Nat × List Nat × List Buffer → Buffer → Nat × List Nat × List Buffer
  | (woff, scratch, out), c =>
    if c.size < c.allocation_size then
      if c.offset ≤ woff + scratch.length then
        (woff, scratch ++ c.bytes.drop (woff + scratch.length - c.offset), out)
      else
        (c.offset, c.bytes, heapPush ⟨woff, scratch, scratch.length, scratch.length⟩ out)
    else
      (woff, scratch, heapPush c out)

/-- Copy wastefully-allocated fragments into tightly-sized merged ones
(`Assembler::defragment`).  The source `expect`s a non-empty store; on an empty
store (never reached through the public operations) we return the state
unchanged.  After the pass `allocated` is reset to `buffered`. -/
def Assembler.defragment (s : Assembler) : Assembler :=
  match s.data with
  | [] => s
  | first :: _ =>
    let r := s.data.foldl defragStep (first.offset, ([] : List Nat), ([] : List Buffer))
    { s with data := heapPush ⟨r.1, r.2.1, r.2.1.length, r.2.1.length⟩ r.2.2,
             allocated := s.buffered }

/-- The over-allocation trigger checked at the end of `Assembler::insert`:
`allocated - buffered > max(buffered * 1.5, 4096)`, computed in `f32` in the
source and rendered here in exact arithmetic multiplied through by 2. -/
def defragTrigger (s : Assembler) : Bool :=
  max (3 * s.buffered) 8192 < 2 * (s.allocated - s.buffered)

/-- Push a fragment into the store, crediting `buffered` with its usable length
and `allocated` with its allocation size (the `self.data.push(Buffer {..})`
blocks of `Assembler::insert`). -/
def pushBuffer (s : Assembler) (b : Buffer) : Assembler :=
  { s with data := heapPush b s.data,
           buffered := s.buffered + b.size,
           allocated := s.allocated + b.allocation_size }

/-- The unordered-mode deduplication loop of `Assembler::insert`: walk the
previously-seen overlapping ranges in ascending order; before each one, push
any genuinely-new prefix as its own fragment (inheriting the full
`allocation_size`), then skip past the overlap. -/
def dedupLoop (alloc : Nat) :
    Assembler → Nat → List Nat → List (Nat × Nat) → Assembler × Nat × List Nat
  | s, offset, bytes, [] => (s, offset, bytes)
  | s, offset, bytes, (ds, de) :: rest =>
    let t : Assembler × Nat × List Nat :=
      if offset < ds then
        (pushBuffer s ⟨offset, bytes.take (ds - offset), (bytes.take (ds - offset)).length, alloc⟩,
          ds, bytes.drop (ds - offset))
      else (s, offset, bytes)
    dedupLoop alloc t.1 de (t.2.2.drop (de - t.2.1)) rest

/-- The mode-dependent first phase of `Assembler::insert`: unordered
deduplication against the seen set, or the ordered-mode discard/trim against
`bytes_read`.  Returns the updated assembler and the remaining fragment. -/
def insertPhase (s : Assembler) (offset : Nat) (bytes : List Nat) (alloc : Nat) :
    Assembler × Nat × List Nat :=
  match s.state with
  | .unordered recvd =>
    let p := RangeSet.replace recvd offset (offset + bytes.length)
    dedupLoop alloc { s with state := .unordered p.2 } offset bytes p.1
  | .ordered =>
    if offset < s.bytes_read then
      if offset + bytes.length ≤ s.bytes_read then (s, offset, [])
      else (s, offset + (s.bytes_read - offset), bytes.drop (s.bytes_read - offset))
    else (s, offset, bytes)

/-- The final step of `Assembler::insert`: drop an empty remainder without
touching the counters (skipping the over-allocation check), otherwise push the
fragment and defragment if the trigger fires. -/
def finishInsert (s : Assembler) (offset : Nat) (bytes : List Nat) (alloc : Nat) : Assembler :=
  if bytes.isEmpty then s
  else
    let s1 := pushBuffer s ⟨offset, bytes, bytes.length, alloc⟩
    if defragTrigger s1 then s1.defragment else s1

/-- Feed a fragment (`Assembler::insert`).  The source asserts
`bytes.len() <= allocation_size`; calls violating it panic and are excluded by
hypothesis wherever it matters. -/
def Assembler.insert (s : Assembler) (offset : Nat) (bytes : List Nat) (alloc : Nat) :
    Assembler :=
  let p := insertPhase s offset bytes alloc
  finishInsert p.1 p.2.1 p.2.2 alloc

/-- Switch or assert the consumption mode (`Assembler::ensure_ordering`).
Requesting ordered while unordered fails without mutating; requesting
unordered while ordered seeds the seen set from `[0, bytes_read)` and every
buffered fragment; otherwise a no-op success. -/
def Assembler.ensure_ordering (s : Assembler) (ordered : Bool) :
    Except IllegalOrderedRead Unit × Assembler :=
  if ordered && !s.state.isOrdered then (.error ⟨⟩, s)
  else if !ordered && s.state.isOrdered then
    let recvd :=
      s.data.foldl (fun rs b => RangeSet.insertR rs b.offset (b.offset + b.bytes.length))
        (RangeSet.insertR ([] : RangeSet) 0 s.bytes_read)
    (.ok (), { s with state := .unordered recvd })
  else (.ok (), s)

/-- Force-set the ordered low-water mark (`Assembler::set_bytes_read`). -/
def Assembler.set_bytes_read (s : Assembler) (new : Nat) : Assembler :=
  { s with bytes_read := new }

/-- Discard all buffered data (`Assembler::clear`). -/
def Assembler.clear (s : Assembler) : Assembler :=
  { s with data := [], buffered := 0, allocated := 0 }


/-! Derived notions used by the specification statements. -/

/-- Well-formedness of the modelled interval set: strictly ordered, pairwise
disjoint, non-empty ranges. -/
def RangeSet.WF (rs : RangeSet) : Prop :=
  rs.Pairwise (fun p q => p.2 < q.1) ∧ ∀ p ∈ rs, p.1 < p.2

/-- Well-formedness of the mode: in unordered mode the seen set is a
well-formed interval set. -/
def StateWF : State → Prop
  | .ordered => True
  | .unordered rs => rs.WF

/-- The store offsets covered by some fragment. -/
def coveredBy (l : List Buffer) (x : Nat) : Prop :=
  ∃ b ∈ l, b.offset ≤ x ∧ x < b.offset + b.bytes.length

/-- Total usable bytes currently held in a store. -/
def sumLen (l : List Buffer) : Nat := (l.map fun b => b.bytes.length).sum

/-- Total recorded (push-time) sizes of a store. -/
def sumSize (l : List Buffer) : Nat := (l.map Buffer.size).sum

/-- A store with no zero-length fragment. -/
def noZeroFrag (s : Assembler) : Prop := ∀ b ∈ s.data, 0 < b.bytes.length

/-- A fragment whose bytes are exactly the logical stream `σ` at its offsets. -/
def Buffer.agreesWith (σ : Nat → Nat) (b : Buffer) : Prop :=
  b.bytes = (List.range' b.offset b.bytes.length).map σ

/-- Whether an `insert` call ends up invoking the internal defragmentation:
its remaining fragment after deduplication/trimming is non-empty and the
over-allocation trigger fires after the final push. -/
def insertTriggers (s : Assembler) (offset : Nat) (bytes : List Nat) (alloc : Nat) : Bool :=
  let p := insertPhase s offset bytes alloc
  !p.2.2.isEmpty && defragTrigger (pushBuffer p.1 ⟨p.2.1, p.2.2, p.2.2.length, alloc⟩)

/-- An operation of the ordered-consumption trace: feed a fragment, or perform
one ordered read. -/
inductive Op where
  | ins (offset : Nat) (bytes : List Nat) (alloc : Nat) : Op
  | rd (max_length : Nat) : Op
deriving DecidableEq, Repr

/-- Run one trace operation, collecting the chunk an ordered read returns. -/
def runOp (s : Assembler) : Op → List Chunk × Assembler
  | .ins o bs a => ([], s.insert o bs a)
  | .rd m => ((s.read m true).1.toList, (s.read m true).2)

/-- Run a trace of operations, concatenating the returned chunks in call
order. -/
def runTrace (s : Assembler) : List Op → List Chunk × Assembler
  | [] => ([], s)
  | op :: ops =>
    let r := runOp s op
    let r2 := runTrace r.2 ops
    (r.1 ++ r2.1, r2.2)

/-- Every inserted fragment of the trace carries the bytes of the logical
stream `σ` at its offsets. -/
def opsAgree (σ : Nat → Nat) : List Op → Bool
  | [] => true
  | .ins o bs _ :: rest =>
    (bs == (List.range' o bs.length).map σ) && opsAgree σ rest
  | .rd _ :: rest => opsAgree σ rest

/-- The chunks tile the stream contiguously starting at `n`: each chunk starts
exactly where the previous one ended. -/
def ChunkChain : Nat → List Chunk → Prop
  | _, [] => True
  | n, c :: cs => c.offset = n ∧ ChunkChain (n + c.bytes.length) cs

/-- States reachable from a fresh assembler through the public operations
(inserts satisfying the source's assertion, reads, mode changes, offset
bookkeeping and clearing; defragmentation happens internally to `insert`). -/
inductive Reachable : Assembler → Prop
  | new : Reachable Assembler.new
  | ins {s} (offset : Nat) (bytes : List Nat) (alloc : Nat) :
      Reachable s → bytes.length ≤ alloc → Reachable (s.insert offset bytes alloc)
  | rd {s} (m : Nat) (ordered : Bool) : Reachable s → Reachable ((s.read m ordered).2)
  | ensure {s} (ordered : Bool) : Reachable s → Reachable ((s.ensure_ordering ordered).2)
  | setBR {s} (n : Nat) : Reachable s → Reachable (s.set_bytes_read n)
  | clr {s} : Reachable s → Reachable s.clear

/-! Concrete states used in the literal scenarios below. -/

/-- The `usize::MAX` bound used for the unbounded reads of the test scenarios. -/
def uMax : Nat := 18446744073709551615

/-- A fresh assembler switched to unordered mode. -/
def sUn : Assembler := (Assembler.new.ensure_ordering false).2

/-- Unordered state whose second insert is fully deduplicated after a prefix
push, so the over-allocation check is skipped. -/
def overAlloc : Assembler := (sUn.insert 2 [99, 100] 2).insert 0 [97, 98, 99, 100] 100000

/-- Ordered state whose second insert triggers defragmentation with a tight
minimum-offset fragment followed by a wasteful fragment at a gap. -/
def zeroFragState : Assembler := (Assembler.new.insert 0 [97, 98] 2).insert 5 [99, 100] 10000

/-- Two adjacent wasteful fragments, which defragmentation merges. -/
def twoFrag : Assembler := (Assembler.new.insert 0 [97, 98] 3).insert 2 [99, 100] 3

/-- State after a split read: the stored fragment keeps its push-time size. -/
def splitState : Assembler := ((Assembler.new.insert 0 [97, 98] 2).read 1 true).2

/-- State holding a fully-stale duplicate fragment below a usable one. -/
def staleState : Assembler :=
  ((((Assembler.new.insert 0 [97, 98] 2).insert 0 [97, 98] 2).insert 2
    [99, 100] 2).read uMax true).2

/-- The three later inserts of the unordered deduplication scenario. -/
def c6Inserts (s : Assembler) : Assembler :=
  ((s.insert 0 [97] 1).insert 0 [97, 98, 99, 100, 101, 102, 103, 104, 105] 9).insert 0
    [97, 98, 99, 100] 4

/-- The deduplication scenario exactly as the claim words it: no read between
the first insert and the later ones. -/
def c6NoRead : Assembler := c6Inserts (sUn.insert 3 [100, 101, 102] 3)

/-- The deduplication scenario as the repository's own test runs it: the first
fragment is read out before the later inserts. -/
def c6AfterRead : Assembler := c6Inserts ((sUn.insert 3 [100, 101, 102] 3).read uMax false).2

/-! Basic lemmas about the heap model. -/

theorem mem_heapPush {a b : Buffer} : ∀ {l : List Buffer}, a ∈ heapPush b l ↔ a = b ∨ a ∈ l := by
  intro l
  induction l with
  | nil => simp [heapPush]
  | cons c rest ih =>
    simp only [heapPush]
    split
    · simp [List.mem_cons]
    · simp only [List.mem_cons, ih]
      tauto

theorem heapPush_ne_nil (b : Buffer) (l : List Buffer) : heapPush b l ≠ [] := by
  cases l with
  | nil => simp [heapPush]
  | cons c rest =>
    simp only [heapPush]
    split <;> simp

theorem sumSize_heapPush (b : Buffer) : ∀ (l : List Buffer),
    sumSize (heapPush b l) = b.size + sumSize l := by
  intro l
  induction l with
  | nil => simp [heapPush, sumSize]
  | cons c rest ih =>
    simp only [heapPush]
    split
    · simp [sumSize]
    · simp only [sumSize, List.map_cons, List.sum_cons] at ih ⊢
      omega

theorem sumLen_heapPush (b : Buffer) : ∀ (l : List Buffer),
    sumLen (heapPush b l) = b.bytes.length + sumLen l := by
  intro l
  induction l with
  | nil => simp [heapPush, sumLen]
  | cons c rest ih =>
    simp only [heapPush]
    split
    · simp [sumLen]
    · simp only [sumLen, List.map_cons, List.sum_cons] at ih ⊢
      omega

theorem coveredBy_heapPush {b : Buffer} {l : List Buffer} {x : Nat} :
    coveredBy (heapPush b l) x ↔
      (b.offset ≤ x ∧ x < b.offset + b.bytes.length) ∨ coveredBy l x := by
  constructor
  · rintro ⟨c, hc, h1, h2⟩
    rcases mem_heapPush.mp hc with rfl | hc'
    · exact Or.inl ⟨h1, h2⟩
    · exact Or.inr ⟨c, hc', h1, h2⟩
  · rintro (⟨h1, h2⟩ | ⟨c, hc, h1, h2⟩)
    · exact ⟨b, mem_heapPush.mpr (Or.inl rfl), h1, h2⟩
    · exact ⟨c, mem_heapPush.mpr (Or.inr hc), h1, h2⟩

theorem range1_drop (n : Nat) : ∀ (s m : Nat),
    (List.range' s m).drop n = List.range' (s + n) (m - n) := by
  induction n with
  | zero => simp
  | succ k ih =>
    intro s m
    cases m with
    | zero => simp
    | succ m2 =>
      rw [List.range'_succ, List.drop_succ_cons, ih (s + 1) m2]
      congr 1 <;> omega

theorem range1_take (n : Nat) : ∀ (s m : Nat),
    (List.range' s m).take n = List.range' s (min n m) := by
  induction n with
  | zero => simp
  | succ k ih =>
    intro s m
    cases m with
    | zero => simp
    | succ m2 =>
      rw [List.range'_succ, List.take_succ_cons, ih (s + 1) m2]
      have : min (k + 1) (m2 + 1) = min k m2 + 1 := by omega
      rw [this, List.range'_succ]

/-- C3 (amended): a read in unordered mode advances `bytes_read` by exactly the
length of the chunk it returns (and by nothing when it returns no chunk), just
as ordered reads do; `bytes_read` is a total delivered-bytes counter, not a
counter private to ordered reads. -/
theorem unordered_read_advances_bytes_read (s : Assembler) (m : Nat) :
    (s.read m false).2.bytes_read =
      s.bytes_read + ((s.read m false).1.elim 0 fun c => c.bytes.length) := by
  unfold Assembler.read
  cases hd : s.data with
  | nil => simp [readGo]
  | cons b rest =>
    simp only [readGo, readFinish, Bool.false_eq_true, if_false]
    split
    · rename_i hlt
      simp [List.length_take, Nat.min_eq_left (Nat.le_of_lt hlt)]
    · simp

/-- C3 counterexample: the claim as stated says a `read(max_length, false)`
call leaves `bytes_read` unchanged; from a fresh unordered assembler holding
`(0, "abc")`, one unordered read moves `bytes_read` from 0 to 3. -/
theorem unordered_read_touches_bytes_read_cex :
    ((sUn.insert 0 [97, 98, 99] 3).read uMax false).2.bytes_read = 3 ∧
    (sUn.insert 0 [97, 98, 99] 3).bytes_read = 0 := by decide

/-- C7: requesting ordered mode while unordered fails with
`IllegalOrderedRead` and leaves the assembler untouched; requesting the mode
already in effect (ordered while ordered, unordered while unordered) is a
no-op success. -/
theorem ensure_ordering_error_and_noop :
    (∀ s : Assembler, s.state.isOrdered = false →
      s.ensure_ordering true = (Except.error ⟨⟩, s)) ∧
    (∀ s : Assembler, s.state.isOrdered = true →
      s.ensure_ordering true = (Except.ok (), s)) ∧
    (∀ s : Assembler, s.state.isOrdered = false →
      s.ensure_ordering false = (Except.ok (), s)) := by
  refine ⟨fun s h => ?_, fun s h => ?_, fun s h => ?_⟩ <;>
    simp [Assembler.ensure_ordering, h]

/-- C7 witness: the three cases at concrete states. -/
theorem ensure_ordering_error_and_noop_witness :
    (sUn.ensure_ordering true = (Except.error ⟨⟩, sUn)) ∧
    (Assembler.new.ensure_ordering true = (Except.ok (), Assembler.new)) ∧
    (sUn.ensure_ordering false = (Except.ok (), sUn)) :=
  ⟨ensure_ordering_error_and_noop.1 sUn (by decide),
   ensure_ordering_error_and_noop.2.1 Assembler.new (by decide),
   ensure_ordering_error_and_noop.2.2 sUn (by decide)⟩

/-- C5 (amended): every `insert` whose fragment still has data left after
deduplication/trimming runs the over-allocation check, so when such a call
returns, `allocated - buffered ≤ max(buffered * 1.5, 4096)` (stated multiplied
through by 2 in exact arithmetic).  Inserts whose remainder is empty return
early and skip the check. -/
theorem defragment_counters (s : Assembler) (hne : s.data ≠ []) :
    s.defragment.allocated = s.buffered ∧ s.defragment.buffered = s.buffered ∧
    s.defragment.bytes_read = s.bytes_read ∧ s.defragment.state = s.state := by
  obtain ⟨f, rest, hf⟩ := List.exists_cons_of_ne_nil hne
  unfold Assembler.defragment
  rw [hf]
  simp

theorem insert_with_push_meets_allocation_bound (s : Assembler) (offset : Nat)
    (bytes : List Nat) (alloc : Nat)
    (h : (insertPhase s offset bytes alloc).2.2 ≠ []) :
    2 * ((s.insert offset bytes alloc).allocated - (s.insert offset bytes alloc).buffered) ≤
      max (3 * (s.insert offset bytes alloc).buffered) 8192 := by
  have hne2 : (insertPhase s offset bytes alloc).2.2.isEmpty = false := by
    simpa using h
  simp only [Assembler.insert, finishInsert, hne2, Bool.false_eq_true, if_false]
  by_cases htr : defragTrigger (pushBuffer (insertPhase s offset bytes alloc).1
      ⟨(insertPhase s offset bytes alloc).2.1, (insertPhase s offset bytes alloc).2.2,
        (insertPhase s offset bytes alloc).2.2.length, alloc⟩) = true
  · rw [if_pos htr]
    have hd : (pushBuffer (insertPhase s offset bytes alloc).1
        ⟨(insertPhase s offset bytes alloc).2.1, (insertPhase s offset bytes alloc).2.2,
          (insertPhase s offset bytes alloc).2.2.length, alloc⟩).data ≠ [] := by
      simp only [pushBuffer]
      exact heapPush_ne_nil _ _
    have hc := defragment_counters _ hd
    rw [hc.1, hc.2.1]
    simp
  · rw [if_neg htr]
    unfold defragTrigger at htr
    simp only [decide_eq_true_eq, Nat.not_lt] at htr
    omega

/-- C5 witness: a fresh insert pushes its fragment and meets the bound. -/
theorem insert_with_push_meets_allocation_bound_witness :
    ((insertPhase Assembler.new 0 [97] 1).2.2 ≠ []) ∧
    (2 * ((Assembler.new.insert 0 [97] 1).allocated -
        (Assembler.new.insert 0 [97] 1).buffered) ≤
      max (3 * (Assembler.new.insert 0 [97] 1).buffered) 8192) :=
  ⟨by decide, insert_with_push_meets_allocation_bound Assembler.new 0 [97] 1 (by decide)⟩

/-- C5 counterexample: the claim as stated wants the bound after every insert.
In unordered mode, after seeing `[2, 4)`, inserting `(0, "abcd")` with
allocation size 100000 pushes the new prefix `(0, "ab")` (crediting the full
allocation) and then returns early because the remainder is fully duplicate,
skipping the over-allocation check: the call returns with
`allocated - buffered = 99998 > max(buffered * 1.5, 4096) = 4096`.  Both
inserts satisfy the source's `bytes.len() <= allocation_size` assertion. -/
theorem insert_skips_overallocation_check_cex :
    overAlloc.buffered = 4 ∧ overAlloc.allocated = 100002 ∧
    ¬ (2 * (overAlloc.allocated - overAlloc.buffered) ≤
        max (3 * overAlloc.buffered) 8192) := by decide

/-- C6 counterexample: the claim (and the spec scenario it quotes) omits the
unordered read of `(3, "def")` that the repository's own test performs before
the later inserts; without it the fragment `(3, "def")` is still buffered and
the third unordered read returns `(3, "def")`, not `(6, "ghi")`. -/
theorem unordered_scenario_missing_read_cex :
    ((((c6NoRead.read uMax false).2.read uMax false).2.read uMax false).1 =
      some ⟨3, [100, 101, 102]⟩) ∧
    some (Chunk.mk 3 [100, 101, 102]) ≠ some (Chunk.mk 6 [103, 104, 105]) := by decide

/-- C6 (amended): with the intermediate read restored — insert `(3, "def")`,
read it back as `(3, "def")`, then insert `(0, "a")`, `(0, "abcdefghi")`,
`(0, "abcd")` — the successive unbounded unordered reads yield exactly
`(0, "a")`, `(1, "bc")`, `(6, "ghi")` and then none: the first-seen bytes win
and only the never-seen sub-ranges of the later insert surface. -/
theorem unordered_scenario_with_reads :
    ((sUn.insert 3 [100, 101, 102] 3).read uMax false).1 = some ⟨3, [100, 101, 102]⟩ ∧
    (c6AfterRead.read uMax false).1 = some ⟨0, [97]⟩ ∧
    ((c6AfterRead.read uMax false).2.read uMax false).1 = some ⟨1, [98, 99]⟩ ∧
    (((c6AfterRead.read uMax false).2.read uMax false).2.read uMax false).1 =
      some ⟨6, [103, 104, 105]⟩ ∧
    ((((c6AfterRead.read uMax false).2.read uMax false).2.read uMax false).2.read
      uMax false).1 = none := by decide

/-- C2 counterexample: defragmentation merges the two adjacent wastefully
allocated fragments `(0, "ab")` and `(2, "cd")`, so the first subsequent
unbounded ordered read returns `(0, "abcd")` instead of `(0, "ab")`: the
sequence of chunks returned by subsequent reads is changed. -/
theorem defragment_alters_read_chunks_cex :
    (twoFrag.read uMax true).1 = some ⟨0, [97, 98]⟩ ∧
    (twoFrag.defragment.read uMax true).1 = some ⟨0, [97, 98, 99, 100]⟩ ∧
    some (Chunk.mk 0 [97, 98]) ≠ some (Chunk.mk 0 [97, 98, 99, 100]) := by decide

/-- C4 counterexample: the state reached by `insert(0, "ab", 2)` then
`insert(5, "cd", 10000)` from a fresh assembler triggers defragmentation,
which flushes the still-empty scratch window when it meets the wasteful
fragment at offset 5 after the tight fragment at offset 0, pushing a fragment
of size zero into the store. -/
theorem defragment_pushes_zero_size_fragment_cex :
    Reachable zeroFragState ∧ (Buffer.mk 0 [] 0 0) ∈ zeroFragState.data :=
  ⟨Reachable.ins 5 [99, 100] 10000
    (Reachable.ins 0 [97, 98] 2 Reachable.new (by decide)) (by decide),
   by decide⟩

/-- C8 counterexample: after `insert(0, "ab", 2)` and a split read of one
byte, the stored fragment keeps its push-time `size` of 2 while only one
usable byte remains, so `buffered = 2` exceeds the sum of usable lengths 1. -/
theorem buffered_exceeds_usable_bytes_cex :
    Reachable splitState ∧ splitState.buffered = 2 ∧ sumLen splitState.data = 1 :=
  ⟨Reachable.rd 1 true (Reachable.ins 0 [97, 98] 2 Reachable.new (by decide)),
   by decide, by decide⟩

/-- C9 counterexample: in a reachable state holding a fully-stale duplicate of
`(0, "ab")` below the usable fragment `(2, "cd")`, a positive read would
return a chunk, and `read(0, true)` does return the empty chunk `(2, [])` —
but it also pops the stale fragment, so `buffered` drops from 4 to 2 rather
than staying unchanged. -/
theorem read_zero_mutates_buffered_cex :
    Reachable staleState ∧
    (staleState.read 1 true).1.isSome = true ∧
    (staleState.read 0 true).1 = some ⟨2, []⟩ ∧
    staleState.buffered = 4 ∧ (staleState.read 0 true).2.buffered = 2 :=
  ⟨Reachable.rd uMax true
    (Reachable.ins 2 [99, 100] 2
      (Reachable.ins 0 [97, 98] 2
        (Reachable.ins 0 [97, 98] 2 Reachable.new (by decide)) (by decide)) (by decide)),
   by decide, by decide, by decide, by decide⟩

theorem overlapsIn_nil_of_all (rs : RangeSet) {a b : Nat}
    (h : ∀ p ∈ rs, ¬ (max p.1 a < min p.2 b)) : RangeSet.overlapsIn rs a b = [] := by
  induction rs with
  | nil => rfl
  | cons p rest ih =>
    rw [RangeSet.overlapsIn, if_neg (h p (List.mem_cons_self p rest))]
    exact ih fun q hq => h q (List.mem_cons_of_mem p hq)

theorem overlapsIn_nil_of_ge (rs : RangeSet) {a b : Nat} (h : b ≤ a) :
    RangeSet.overlapsIn rs a b = [] :=
  overlapsIn_nil_of_all rs fun p _ => by omega

theorem overlapsIn_of_cover : ∀ (rs : RangeSet), rs.WF → ∀ x y a b : Nat,
    (x, y) ∈ rs → x ≤ a → b ≤ y → a < b → RangeSet.overlapsIn rs a b = [(a, b)] := by
  intro rs
  induction rs with
  | nil =>
    intro _ x y a b hmem
    cases hmem
  | cons p rest ih =>
    intro hwf x y a b hmem hx hy hab
    obtain ⟨hpw, hne⟩ := hwf
    rw [List.pairwise_cons] at hpw
    rcases List.mem_cons.mp hmem with heq | hmem2
    · have hp1 : p.1 = x := by rw [← heq]
      have hp2 : p.2 = y := by rw [← heq]
      have hclip : max p.1 a < min p.2 b := by omega
      have hrest : RangeSet.overlapsIn rest a b = [] := by
        refine overlapsIn_nil_of_all rest fun q hq => ?_
        have hyq : p.2 < q.1 := hpw.1 q hq
        omega
      have hmax : max p.1 a = a := by omega
      have hmin : min p.2 b = b := by omega
      rw [RangeSet.overlapsIn, if_pos hclip, hrest, hmax, hmin]
    · have hxy : p.2 < x := hpw.1 (x, y) hmem2
      have hno : ¬ (max p.1 a < min p.2 b) := by omega
      rw [RangeSet.overlapsIn, if_neg hno]
      exact ih ⟨hpw.2, fun q hq => hne q (List.mem_cons_of_mem p hq)⟩ x y a b hmem2 hx hy hab

theorem dedupLoop_full (alloc : Nat) (s : Assembler) (a : Nat) (bytes : List Nat) :
    dedupLoop alloc s a bytes [(a, a + bytes.length)] = (s, a + bytes.length, []) := by
  simp [dedupLoop, List.drop_length]

/-- C10: `clear` empties the store and zeroes `buffered` and `allocated` while
leaving the mode flag, the unordered seen set and `bytes_read` untouched; in
particular a byte range fully recorded as seen before `clear` is still
deduplicated away when re-inserted afterwards, leaving the store empty. -/
theorem clear_preserves_mode_and_seen :
    (∀ s : Assembler, s.clear.state = s.state ∧ s.clear.bytes_read = s.bytes_read ∧
      s.clear.data = [] ∧ s.clear.buffered = 0 ∧ s.clear.allocated = 0) ∧
    (∀ (s : Assembler) (rs : RangeSet) (x y offset alloc : Nat) (bytes : List Nat),
      s.state = State.unordered rs → rs.WF → (x, y) ∈ rs → x ≤ offset →
      offset + bytes.length ≤ y →
      (s.clear.insert offset bytes alloc).data = [] ∧
      (s.clear.insert offset bytes alloc).buffered = 0) := by
  constructor
  · intro s
    exact ⟨rfl, rfl, rfl, rfl, rfl⟩
  · intro s rs x y offset alloc bytes hst hwf hmem hx hy
    have hclst : s.clear.state = State.unordered rs := hst
    have hphase : insertPhase s.clear offset bytes alloc =
        (⟨State.unordered (RangeSet.insertR rs offset (offset + bytes.length)),
          s.clear.data, s.clear.buffered, s.clear.allocated, s.clear.bytes_read⟩,
         (if bytes = [] then offset else offset + bytes.length), []) := by
      unfold insertPhase
      rw [hclst]
      by_cases hb : bytes = []
      · subst hb
        rw [if_pos rfl]
        simp only [List.length_nil, Nat.add_zero, RangeSet.replace,
          overlapsIn_nil_of_ge rs (Nat.le_refl offset)]
        simp [dedupLoop]
      · rw [if_neg hb]
        have hlen : 0 < bytes.length := List.length_pos.mpr hb
        simp only [RangeSet.replace,
          overlapsIn_of_cover rs hwf x y offset (offset + bytes.length) hmem hx hy
            (by omega)]
        exact dedupLoop_full alloc _ offset bytes
    have hins : s.clear.insert offset bytes alloc =
        ⟨State.unordered (RangeSet.insertR rs offset (offset + bytes.length)),
          s.clear.data, s.clear.buffered, s.clear.allocated, s.clear.bytes_read⟩ := by
      unfold Assembler.insert
      rw [hphase]
      simp [finishInsert]
    rw [hins]
    exact ⟨rfl, rfl⟩

/-- C10 witness: the frame equalities at a fresh assembler, and a covered
range re-inserted after `clear` being dropped at a concrete unordered state. -/
theorem clear_preserves_mode_and_seen_witness :
    (Assembler.new.clear.state = Assembler.new.state ∧
     Assembler.new.clear.bytes_read = Assembler.new.bytes_read ∧
     Assembler.new.clear.data = [] ∧ Assembler.new.clear.buffered = 0 ∧
     Assembler.new.clear.allocated = 0) ∧
    (((sUn.insert 0 [97, 98] 2).clear.insert 1 [97] 3).data = [] ∧
     ((sUn.insert 0 [97, 98] 2).clear.insert 1 [97] 3).buffered = 0) :=
  ⟨clear_preserves_mode_and_seen.1 Assembler.new,
   clear_preserves_mode_and_seen.2 (sUn.insert 0 [97, 98] 2) [(0, 2)] 0 2 1 3 [97]
     (by decide) (by refine ⟨?_, ?_⟩ <;> simp) (by decide) (by decide) (by decide)⟩

/-! Lemmas about fragments agreeing with a logical stream, and about coverage. -/

theorem sliceAgree_drop {σ : Nat → Nat} {off : Nat} {l : List Nat}
    (h : l = (List.range' off l.length).map σ) (n : Nat) :
    l.drop n = (List.range' (off + n) ((l.drop n).length)).map σ := by
  conv_lhs => rw [h, ← List.map_drop, range1_drop]
  rw [List.length_drop]

theorem sliceAgree_take {σ : Nat → Nat} {off : Nat} {l : List Nat}
    (h : l = (List.range' off l.length).map σ) (n : Nat) :
    l.take n = (List.range' off ((l.take n).length)).map σ := by
  conv_lhs => rw [h, ← List.map_take, range1_take]
  rw [List.length_take]

theorem sliceAgree_append {σ : Nat → Nat} {off : Nat} {l1 l2 : List Nat}
    (h1 : l1 = (List.range' off l1.length).map σ)
    (h2 : l2 = (List.range' (off + l1.length) l2.length).map σ) :
    l1 ++ l2 = (List.range' off ((l1 ++ l2).length)).map σ := by
  rw [List.length_append]
  conv_lhs => rw [h1, h2]
  rw [← List.map_append, List.range'_append_1, Nat.add_comm]

theorem coveredBy_nil (x : Nat) : ¬ coveredBy [] x := by
  rintro ⟨b, hb, _⟩
  cases hb

theorem coveredBy_cons {c : Buffer} {l : List Buffer} {x : Nat} :
    coveredBy (c :: l) x ↔
      (c.offset ≤ x ∧ x < c.offset + c.bytes.length) ∨ coveredBy l x := by
  constructor
  · rintro ⟨b, hb, h1, h2⟩
    rcases List.mem_cons.mp hb with rfl | hb2
    · exact Or.inl ⟨h1, h2⟩
    · exact Or.inr ⟨b, hb2, h1, h2⟩
  · rintro (⟨h1, h2⟩ | ⟨b, hb, h1, h2⟩)
    · exact ⟨c, List.mem_cons_self c l, h1, h2⟩
    · exact ⟨b, List.mem_cons_of_mem c hb, h1, h2⟩

theorem defragStep_eq (woff : Nat) (scratch : List Nat) (out : List Buffer) (c : Buffer) :
    defragStep (woff, scratch, out) c =
      if c.size < c.allocation_size then
        if c.offset ≤ woff + scratch.length then
          (woff, scratch ++ c.bytes.drop (woff + scratch.length - c.offset), out)
        else (c.offset, c.bytes, heapPush ⟨woff, scratch, scratch.length, scratch.length⟩ out)
      else (woff, scratch, heapPush c out) := rfl

theorem defragment_data (s : Assembler) (f : Buffer) (rest : List Buffer)
    (hd : s.data = f :: rest) :
    s.defragment.data =
      heapPush ⟨((f :: rest).foldl defragStep (f.offset, [], [])).1,
                ((f :: rest).foldl defragStep (f.offset, [], [])).2.1,
                ((f :: rest).foldl defragStep (f.offset, [], [])).2.1.length,
                ((f :: rest).foldl defragStep (f.offset, [], [])).2.1.length⟩
        ((f :: rest).foldl defragStep (f.offset, [], [])).2.2 := by
  unfold Assembler.defragment
  rw [hd]

theorem defragStep_fold_agrees (σ : Nat → Nat) :
    ∀ (l : List Buffer) (woff : Nat) (scratch : List Nat) (out : List Buffer),
      (∀ b ∈ l, b.agreesWith σ) →
      scratch = (List.range' woff scratch.length).map σ →
      (∀ b ∈ out, b.agreesWith σ) →
      ((l.foldl defragStep (woff, scratch, out)).2.1 =
        (List.range' (l.foldl defragStep (woff, scratch, out)).1
          ((l.foldl defragStep (woff, scratch, out)).2.1.length)).map σ) ∧
      ∀ b ∈ (l.foldl defragStep (woff, scratch, out)).2.2, b.agreesWith σ := by
  intro l
  induction l with
  | nil =>
    intro woff scratch out _ hs hout
    exact ⟨hs, hout⟩
  | cons c rest ih =>
    intro woff scratch out hl hs hout
    have hc : c.agreesWith σ := hl c (List.mem_cons_self c rest)
    have hrest : ∀ b ∈ rest, b.agreesWith σ := fun b hb => hl b (List.mem_cons_of_mem c hb)
    rw [List.foldl_cons, defragStep_eq]
    by_cases hw : c.size < c.allocation_size
    · rw [if_pos hw]
      by_cases hov : c.offset ≤ woff + scratch.length
      · rw [if_pos hov]
        refine ih woff _ out hrest ?_ hout
        have hdrop := sliceAgree_drop hc (woff + scratch.length - c.offset)
        have hoff : c.offset + (woff + scratch.length - c.offset) = woff + scratch.length := by
          omega
        rw [hoff] at hdrop
        exact sliceAgree_append hs hdrop
      · rw [if_neg hov]
        refine ih c.offset c.bytes _ hrest hc ?_
        intro b hb
        rcases mem_heapPush.mp hb with rfl | hb2
        · exact hs
        · exact hout b hb2
    · rw [if_neg hw]
      refine ih woff scratch _ hrest hs ?_
      intro b hb
      rcases mem_heapPush.mp hb with rfl | hb2
      · exact hc
      · exact hout b hb2

theorem defragment_agrees (σ : Nat → Nat) (s : Assembler)
    (h : ∀ b ∈ s.data, b.agreesWith σ) : ∀ b ∈ s.defragment.data, b.agreesWith σ := by
  cases hd : s.data with
  | nil =>
    have he : s.defragment = s := by
      unfold Assembler.defragment
      rw [hd]
    rw [he]
    exact h
  | cons f rest =>
    rw [defragment_data s f rest hd]
    rw [hd] at h
    have hfold := defragStep_fold_agrees σ (f :: rest) f.offset [] [] h (by simp) (by simp)
    intro b hb
    rcases mem_heapPush.mp hb with rfl | hb2
    · exact hfold.1
    · exact hfold.2 b hb2

theorem defragStep_fold_covered :
    ∀ (l : List Buffer) (woff : Nat) (scratch : List Nat) (out : List Buffer),
      (∀ c ∈ l, woff ≤ c.offset) →
      List.Pairwise (fun a b : Buffer => a.offset ≤ b.offset) l →
      ∀ x : Nat,
        (coveredBy (l.foldl defragStep (woff, scratch, out)).2.2 x ∨
          ((l.foldl defragStep (woff, scratch, out)).1 ≤ x ∧
            x < (l.foldl defragStep (woff, scratch, out)).1 +
              (l.foldl defragStep (woff, scratch, out)).2.1.length)) ↔
        (coveredBy out x ∨ (woff ≤ x ∧ x < woff + scratch.length) ∨ coveredBy l x) := by
  intro l
  induction l with
  | nil =>
    intro woff scratch out _ _ x
    rw [List.foldl_nil]
    have hnil := coveredBy_nil x
    tauto
  | cons c rest ih =>
    intro woff scratch out hle hpw x
    rw [List.pairwise_cons] at hpw
    obtain ⟨hpw1, hpw2⟩ := hpw
    have hcoff : woff ≤ c.offset := hle c (List.mem_cons_self c rest)
    have hlerest : ∀ q ∈ rest, woff ≤ q.offset := fun q hq => hle q (List.mem_cons_of_mem c hq)
    rw [List.foldl_cons, defragStep_eq, coveredBy_cons]
    by_cases hw : c.size < c.allocation_size
    · rw [if_pos hw]
      by_cases hov : c.offset ≤ woff + scratch.length
      · rw [if_pos hov]
        rw [ih woff (scratch ++ c.bytes.drop (woff + scratch.length - c.offset)) out
          hlerest hpw2 x]
        have hlen : (scratch ++ c.bytes.drop (woff + scratch.length - c.offset)).length =
            scratch.length + (c.bytes.length - (woff + scratch.length - c.offset)) := by
          rw [List.length_append, List.length_drop]
        rw [hlen]
        have hWiff : (woff ≤ x ∧ x < woff + (scratch.length +
              (c.bytes.length - (woff + scratch.length - c.offset)))) ↔
            ((woff ≤ x ∧ x < woff + scratch.length) ∨
              (c.offset ≤ x ∧ x < c.offset + c.bytes.length)) := by omega
        tauto
      · rw [if_neg hov]
        rw [ih c.offset c.bytes (heapPush ⟨woff, scratch, scratch.length, scratch.length⟩ out)
          hpw1 hpw2 x]
        have hheap : coveredBy (heapPush ⟨woff, scratch, scratch.length, scratch.length⟩ out) x ↔
            (woff ≤ x ∧ x < woff + scratch.length) ∨ coveredBy out x := coveredBy_heapPush
        tauto
    · rw [if_neg hw]
      rw [ih woff scratch (heapPush c out) hlerest hpw2 x]
      have hheap : coveredBy (heapPush c out) x ↔
          (c.offset ≤ x ∧ x < c.offset + c.bytes.length) ∨ coveredBy out x := coveredBy_heapPush
      tauto

/-- C2 (amended): defragmentation does change the boundaries of subsequently
returned chunks (see the counterexample), but for any store (sorted by offset,
as the heap maintains) it preserves the buffered content: every offset is
covered after the pass exactly when it was covered before, any store whose
fragments all agree with one logical stream still agrees with it afterwards,
and `buffered`, `bytes_read` and the mode are untouched. -/
theorem defragment_preserves_covered_bytes (σ : Nat → Nat) (s : Assembler)
    (hs : List.Pairwise (fun a b : Buffer => a.offset ≤ b.offset) s.data) :
    (∀ x : Nat, coveredBy s.defragment.data x ↔ coveredBy s.data x) ∧
    ((∀ b ∈ s.data, b.agreesWith σ) → ∀ b ∈ s.defragment.data, b.agreesWith σ) ∧
    s.defragment.buffered = s.buffered ∧
    s.defragment.bytes_read = s.bytes_read ∧
    s.defragment.state = s.state := by
  refine ⟨?_, fun h => defragment_agrees σ s h, ?_, ?_, ?_⟩
  rotate_left
  · cases hd : s.data with
    | nil =>
      have he : s.defragment = s := by
        unfold Assembler.defragment
        rw [hd]
      rw [he]
    | cons f rest =>
      exact (defragment_counters s (by rw [hd]; exact List.cons_ne_nil f rest)).2.1
  · cases hd : s.data with
    | nil =>
      have he : s.defragment = s := by
        unfold Assembler.defragment
        rw [hd]
      rw [he]
    | cons f rest =>
      exact (defragment_counters s (by rw [hd]; exact List.cons_ne_nil f rest)).2.2.1
  · cases hd : s.data with
    | nil =>
      have he : s.defragment = s := by
        unfold Assembler.defragment
        rw [hd]
      rw [he]
    | cons f rest =>
      exact (defragment_counters s (by rw [hd]; exact List.cons_ne_nil f rest)).2.2.2
  · intro x
    cases hd : s.data with
    | nil =>
      have he : s.defragment = s := by
        unfold Assembler.defragment
        rw [hd]
      rw [he, hd]
    | cons f rest =>
      rw [hd] at hs
      have hle : ∀ c ∈ f :: rest, f.offset ≤ c.offset := by
        intro c hc
        rcases List.mem_cons.mp hc with rfl | hc2
        · exact Nat.le_refl c.offset
        · exact (List.pairwise_cons.mp hs).1 c hc2
      have hfold := defragStep_fold_covered (f :: rest) f.offset [] [] hle hs x
      rw [defragment_data s f rest hd, coveredBy_heapPush]
      dsimp only at hfold ⊢
      simp only [List.length_nil, Nat.add_zero] at hfold
      have hnil := coveredBy_nil x
      have hemp : ¬ (f.offset ≤ x ∧ x < f.offset) := by omega
      tauto

/-- C2 witness: the amended statement at the concrete merged-fragments state,
with the logical stream `97 + i`. -/
theorem defragment_preserves_covered_bytes_witness :
    (∀ x : Nat, coveredBy twoFrag.defragment.data x ↔ coveredBy twoFrag.data x) ∧
    ((∀ b ∈ twoFrag.data, b.agreesWith fun i => 97 + i) →
      ∀ b ∈ twoFrag.defragment.data, b.agreesWith fun i => 97 + i) ∧
    twoFrag.defragment.buffered = twoFrag.buffered ∧
    twoFrag.defragment.bytes_read = twoFrag.bytes_read ∧
    twoFrag.defragment.state = twoFrag.state :=
  defragment_preserves_covered_bytes (fun i => 97 + i) twoFrag (by decide)

/-! Lemmas about the read loop. -/

theorem trimBuffer_eq (b : Buffer) (n : Nat) :
    trimBuffer b n = { b with offset := b.offset + n, bytes := b.bytes.drop n } := by
  unfold trimBuffer
  by_cases h : 0 < n
  · rw [if_pos h]
  · rw [if_neg h]
    have hn : n = 0 := by omega
    subst hn
    simp

theorem readFinish_chunk (m br buf alc : Nat) (b : Buffer) (rest : List Buffer) :
    ∃ c, (readFinish m br buf alc b rest).1 = some c ∧ c.offset = b.offset ∧
      (readFinish m br buf alc b rest).2.2.2.2 = br + c.bytes.length := by
  unfold readFinish
  by_cases h : m < b.bytes.length
  · rw [if_pos h]
    refine ⟨⟨b.offset, b.bytes.take m⟩, rfl, rfl, ?_⟩
    simp only [List.length_take]
    rw [Nat.min_eq_left (Nat.le_of_lt h)]
  · rw [if_neg h]
    exact ⟨⟨b.offset, b.bytes⟩, rfl, rfl, rfl⟩

theorem readFinish_agrees (σ : Nat → Nat) (m br buf alc : Nat) (b : Buffer)
    (rest : List Buffer) (hb : b.agreesWith σ) (hrest : ∀ q ∈ rest, q.agreesWith σ) :
    (∀ q ∈ (readFinish m br buf alc b rest).2.1, q.agreesWith σ) ∧
    (∀ c, (readFinish m br buf alc b rest).1 = some c →
      c.bytes = (List.range' c.offset c.bytes.length).map σ) := by
  unfold readFinish
  by_cases h : m < b.bytes.length
  · rw [if_pos h]
    constructor
    · intro q hq
      rcases mem_heapPush.mp hq with rfl | hq2
      · exact sliceAgree_drop hb m
      · exact hrest q hq2
    · intro c hc
      cases hc
      exact sliceAgree_take hb m
  · rw [if_neg h]
    constructor
    · intro q hq
      exact hrest q hq
    · intro c hc
      cases hc
      exact hb

theorem readGo_ordered_chunk (m br : Nat) :
    ∀ (data : List Buffer) (buf alc : Nat),
      (match (readGo m true br buf alc data).1 with
       | some c => c.offset = br ∧
           (readGo m true br buf alc data).2.2.2.2 = br + c.bytes.length
       | none => (readGo m true br buf alc data).2.2.2.2 = br) := by
  intro data
  induction data with
  | nil =>
    intro buf alc
    simp [readGo]
  | cons b rest ih =>
    intro buf alc
    simp only [readGo, if_true]
    by_cases h1 : br < b.offset
    · rw [if_pos h1]
    · rw [if_neg h1]
      by_cases h2 : b.offset + b.bytes.length ≤ br
      · rw [if_pos h2]
        exact ih _ _
      · rw [if_neg h2]
        obtain ⟨c, hc, hoff, hbr⟩ :=
          readFinish_chunk m br buf alc (trimBuffer b (br - b.offset)) rest
        rw [hc]
        refine ⟨?_, hbr⟩
        rw [hoff, trimBuffer_eq]
        dsimp only
        omega

theorem readGo_ordered_agrees (σ : Nat → Nat) (m br : Nat) :
    ∀ (data : List Buffer) (buf alc : Nat), (∀ b ∈ data, b.agreesWith σ) →
      (∀ b ∈ (readGo m true br buf alc data).2.1, b.agreesWith σ) ∧
      (∀ c, (readGo m true br buf alc data).1 = some c →
        c.bytes = (List.range' c.offset c.bytes.length).map σ) := by
  intro data
  induction data with
  | nil =>
    intro buf alc h
    refine ⟨?_, ?_⟩
    · intro b hb
      cases hb
    · intro c hc
      cases hc
  | cons b rest ih =>
    intro buf alc h
    have hb : b.agreesWith σ := h b (List.mem_cons_self b rest)
    have hrest : ∀ q ∈ rest, q.agreesWith σ := fun q hq => h q (List.mem_cons_of_mem b hq)
    simp only [readGo, if_true]
    by_cases h1 : br < b.offset
    · rw [if_pos h1]
      refine ⟨h, ?_⟩
      intro c hc
      cases hc
    · rw [if_neg h1]
      by_cases h2 : b.offset + b.bytes.length ≤ br
      · rw [if_pos h2]
        exact ih _ _ hrest
      · rw [if_neg h2]
        refine readFinish_agrees σ m br buf alc _ rest ?_ hrest
        rw [trimBuffer_eq]
        exact sliceAgree_drop hb (br - b.offset)

theorem readFinish_isSome (m br buf alc : Nat) (b : Buffer) (rest : List Buffer) :
    (readFinish m br buf alc b rest).1.isSome = true := by
  unfold readFinish
  by_cases h : m < b.bytes.length
  · rw [if_pos h]
    rfl
  · rw [if_neg h]
    rfl

theorem readGo_isSome_indep (o : Bool) (m m2 br : Nat) :
    ∀ (data : List Buffer) (buf alc : Nat),
      (readGo m o br buf alc data).1.isSome = (readGo m2 o br buf alc data).1.isSome := by
  intro data
  induction data with
  | nil =>
    intro buf alc
    rfl
  | cons b rest ih =>
    intro buf alc
    cases o with
    | false =>
      simp only [readGo, Bool.false_eq_true, if_false]
      rw [readFinish_isSome, readFinish_isSome]
    | true =>
      simp only [readGo, if_true]
      by_cases h1 : br < b.offset
      · rw [if_pos h1, if_pos h1]
      · rw [if_neg h1, if_neg h1]
        by_cases h2 : b.offset + b.bytes.length ≤ br
        · rw [if_pos h2, if_pos h2]
          exact ih _ _
        · rw [if_neg h2, if_neg h2, readFinish_isSome, readFinish_isSome]

theorem coveredBy_heapPush_arith {q : Buffer} {l : List Buffer} {x : Nat} (qoff qlen : Nat)
    (ho : q.offset = qoff) (hl : q.bytes.length = qlen) :
    coveredBy (heapPush q l) x ↔ (qoff ≤ x ∧ x < qoff + qlen) ∨ coveredBy l x := by
  rw [coveredBy_heapPush, ho, hl]

theorem readGo_zero (o : Bool) (br : Nat) :
    ∀ (data : List Buffer) (buf alc : Nat),
      (∀ c, (readGo 0 o br buf alc data).1 = some c → c.bytes = []) ∧
      (readGo 0 o br buf alc data).2.2.2.2 = br ∧
      (∀ x, br ≤ x → (coveredBy (readGo 0 o br buf alc data).2.1 x ↔ coveredBy data x)) := by
  intro data
  induction data with
  | nil =>
    intro buf alc
    refine ⟨?_, rfl, fun x _ => Iff.rfl⟩
    intro c hc
    cases hc
  | cons b rest ih =>
    intro buf alc
    have hfin : ∀ (bb : Buffer) (bu al : Nat), 0 < bb.bytes.length →
        readFinish 0 br bu al bb rest =
          (some ⟨bb.offset, []⟩,
            heapPush { bb with offset := bb.offset + 0, bytes := bb.bytes.drop 0 } rest,
            bu, al, br + 0) := by
      intro bb bu al hlen
      unfold readFinish
      rw [if_pos hlen]
      rfl
    have hpop : ∀ (bb : Buffer) (bu al : Nat), bb.bytes = [] →
        readFinish 0 br bu al bb rest =
          (some ⟨bb.offset, bb.bytes⟩, rest, bu - bb.size, al - bb.allocation_size,
            br + bb.bytes.length) := by
      intro bb bu al hbb
      unfold readFinish
      rw [if_neg]
      rw [hbb]
      exact Nat.lt_irrefl 0
    cases o with
    | false =>
      simp only [readGo, Bool.false_eq_true, if_false]
      by_cases hlen : 0 < b.bytes.length
      · rw [hfin b buf alc hlen]
        refine ⟨fun c hc => by cases hc; rfl, rfl, ?_⟩
        intro x hx
        rw [coveredBy_heapPush_arith b.offset b.bytes.length ?ho ?hl, coveredBy_cons]
        case ho =>
          dsimp only
          omega
        case hl =>
          dsimp only
          rw [List.drop_zero]
      · have hb0 : b.bytes = [] := List.length_eq_zero.mp (by omega)
        rw [hpop b buf alc hb0]
        refine ⟨fun c hc => by cases hc; exact hb0, by rw [hb0]; rfl, ?_⟩
        intro x hx
        rw [coveredBy_cons]
        have hno : ¬ (b.offset ≤ x ∧ x < b.offset + b.bytes.length) := by
          rw [hb0]
          simp only [List.length_nil]
          omega
        tauto
    | true =>
      simp only [readGo, eq_self_iff_true, if_true]
      by_cases h1 : br < b.offset
      · rw [if_pos h1]
        refine ⟨?_, rfl, fun x _ => Iff.rfl⟩
        intro c hc
        cases hc
      · rw [if_neg h1]
        by_cases h2 : b.offset + b.bytes.length ≤ br
        · rw [if_pos h2]
          obtain ⟨ih1, ih2, ih3⟩ := ih (buf - b.size) (alc - b.allocation_size)
          refine ⟨ih1, ih2, ?_⟩
          intro x hx
          rw [ih3 x hx, coveredBy_cons]
          have hno : ¬ (b.offset ≤ x ∧ x < b.offset + b.bytes.length) := by omega
          tauto
        · rw [if_neg h2]
          have hlen : 0 < (trimBuffer b (br - b.offset)).bytes.length := by
            rw [trimBuffer_eq]
            dsimp only
            rw [List.length_drop]
            omega
          rw [hfin _ buf alc hlen]
          refine ⟨fun c hc => by cases hc; rfl, rfl, ?_⟩
          intro x hx
          rw [coveredBy_heapPush_arith br (b.bytes.length - (br - b.offset)) ?ho ?hl,
            coveredBy_cons]
          case ho =>
            dsimp only
            rw [trimBuffer_eq]
            dsimp only
            omega
          case hl =>
            dsimp only
            rw [List.drop_zero, trimBuffer_eq]
            dsimp only
            rw [List.length_drop]
          have hiff : (br ≤ x ∧ x < br + (b.bytes.length - (br - b.offset))) ↔
              (b.offset ≤ x ∧ x < b.offset + b.bytes.length) := by omega
          tauto

/-- C9 (amended): whenever a positive-length read would return a chunk,
`read(0, ordered)` returns `some` chunk with empty bytes rather than `none`,
and advances `bytes_read` by zero; the state is not otherwise untouched — the
ordered branch performs the same lazy stale-fragment drops and in-place prefix
trim as any read — but every covered offset at or above `bytes_read` stays
covered exactly as before. -/
theorem read_zero_returns_empty_chunk (s : Assembler) (o : Bool)
    (h : (s.read 1 o).1.isSome = true) :
    (∃ c, (s.read 0 o).1 = some c ∧ c.bytes = []) ∧
    (s.read 0 o).2.bytes_read = s.bytes_read ∧
    (∀ x, s.bytes_read ≤ x →
      (coveredBy (s.read 0 o).2.data x ↔ coveredBy s.data x)) := by
  obtain ⟨hz1, hz2, hz3⟩ := readGo_zero o s.bytes_read s.data s.buffered s.allocated
  have hsome : (s.read 0 o).1.isSome = true := by
    have hind := readGo_isSome_indep o 0 1 s.bytes_read s.data s.buffered s.allocated
    have h2 : (readGo 1 o s.bytes_read s.buffered s.allocated s.data).1.isSome = true := h
    exact hind.trans h2
  obtain ⟨c, hc⟩ := Option.isSome_iff_exists.mp hsome
  have hc2 : (readGo 0 o s.bytes_read s.buffered s.allocated s.data).1 = some c := hc
  refine ⟨⟨c, hc, hz1 c hc2⟩, hz2, ?_⟩
  intro x hx
  exact hz3 x hx

/-- C9 witness: the amended statement at the stale-duplicate state. -/
theorem read_zero_returns_empty_chunk_witness :
    (∃ c, (staleState.read 0 true).1 = some c ∧ c.bytes = []) ∧
    (staleState.read 0 true).2.bytes_read = staleState.bytes_read ∧
    (∀ x, staleState.bytes_read ≤ x →
      (coveredBy (staleState.read 0 true).2.data x ↔ coveredBy staleState.data x)) :=
  read_zero_returns_empty_chunk staleState true (by decide)

/-! Lemmas about insert in ordered mode, and the ordered trace. -/

theorem insert_eq (s : Assembler) (offset : Nat) (bytes : List Nat) (alloc : Nat) :
    s.insert offset bytes alloc =
      finishInsert (insertPhase s offset bytes alloc).1
        (insertPhase s offset bytes alloc).2.1
        (insertPhase s offset bytes alloc).2.2 alloc := rfl

theorem insertPhase_ordered (s : Assembler) (offset : Nat) (bytes : List Nat) (alloc : Nat)
    (hst : s.state = State.ordered) :
    insertPhase s offset bytes alloc =
      if offset < s.bytes_read then
        (if offset + bytes.length ≤ s.bytes_read then (s, offset, ([] : List Nat))
         else (s, offset + (s.bytes_read - offset), bytes.drop (s.bytes_read - offset)))
      else (s, offset, bytes) := by
  unfold insertPhase
  rw [hst]

theorem finishInsert_spec (σ : Nat → Nat) (s1 : Assembler) (o1 : Nat) (b1 : List Nat)
    (alloc : Nat) (hagree : b1 = (List.range' o1 b1.length).map σ)
    (hdata : ∀ b ∈ s1.data, b.agreesWith σ) :
    (finishInsert s1 o1 b1 alloc).state = s1.state ∧
    (finishInsert s1 o1 b1 alloc).bytes_read = s1.bytes_read ∧
    ∀ b ∈ (finishInsert s1 o1 b1 alloc).data, b.agreesWith σ := by
  by_cases hb : b1.isEmpty = true
  · have hfi : finishInsert s1 o1 b1 alloc = s1 := by
      unfold finishInsert
      rw [if_pos hb]
    rw [hfi]
    exact ⟨rfl, rfl, hdata⟩
  · have hb2 : b1.isEmpty = false := by
      revert hb
      cases b1.isEmpty <;> simp
    simp only [finishInsert, hb2, Bool.false_eq_true, if_false]
    have hpa : ∀ b ∈ (pushBuffer s1 ⟨o1, b1, b1.length, alloc⟩).data, b.agreesWith σ := by
      intro b hbm
      rcases mem_heapPush.mp hbm with rfl | hbm2
      · exact hagree
      · exact hdata b hbm2
    by_cases htr : defragTrigger (pushBuffer s1 ⟨o1, b1, b1.length, alloc⟩) = true
    · rw [if_pos htr]
      have hne : (pushBuffer s1 ⟨o1, b1, b1.length, alloc⟩).data ≠ [] :=
        heapPush_ne_nil _ _
      have hcnt := defragment_counters _ hne
      exact ⟨hcnt.2.2.2, hcnt.2.2.1, defragment_agrees σ _ hpa⟩
    · rw [if_neg htr]
      exact ⟨rfl, rfl, hpa⟩

theorem insert_ordered_spec (σ : Nat → Nat) (s : Assembler) (offset : Nat)
    (bytes : List Nat) (alloc : Nat)
    (hst : s.state = State.ordered)
    (hby : bytes = (List.range' offset bytes.length).map σ)
    (hdata : ∀ b ∈ s.data, b.agreesWith σ) :
    (s.insert offset bytes alloc).state = State.ordered ∧
    (s.insert offset bytes alloc).bytes_read = s.bytes_read ∧
    ∀ b ∈ (s.insert offset bytes alloc).data, b.agreesWith σ := by
  rw [insert_eq, insertPhase_ordered s offset bytes alloc hst]
  by_cases h1 : offset < s.bytes_read
  · rw [if_pos h1]
    by_cases h2 : offset + bytes.length ≤ s.bytes_read
    · rw [if_pos h2]
      dsimp only
      have hfin := finishInsert_spec σ s offset [] alloc (by simp) hdata
      exact ⟨hfin.1.trans hst, hfin.2.1, hfin.2.2⟩
    · rw [if_neg h2]
      dsimp only
      have hag := sliceAgree_drop hby (s.bytes_read - offset)
      have hfin := finishInsert_spec σ s _ _ alloc hag hdata
      exact ⟨hfin.1.trans hst, hfin.2.1, hfin.2.2⟩
  · rw [if_neg h1]
    dsimp only
    have hfin := finishInsert_spec σ s offset bytes alloc hby hdata
    exact ⟨hfin.1.trans hst, hfin.2.1, hfin.2.2⟩

theorem read_ordered_spec (σ : Nat → Nat) (s : Assembler) (m : Nat)
    (hdata : ∀ b ∈ s.data, b.agreesWith σ) :
    (s.read m true).2.state = s.state ∧
    (∀ b ∈ (s.read m true).2.data, b.agreesWith σ) ∧
    (∀ c, (s.read m true).1 = some c → c.offset = s.bytes_read ∧
      (s.read m true).2.bytes_read = s.bytes_read + c.bytes.length ∧
      c.bytes = (List.range' c.offset c.bytes.length).map σ) ∧
    ((s.read m true).1 = none → (s.read m true).2.bytes_read = s.bytes_read) := by
  have hch := readGo_ordered_chunk m s.bytes_read s.data s.buffered s.allocated
  have hag := readGo_ordered_agrees σ m s.bytes_read s.data s.buffered s.allocated hdata
  refine ⟨rfl, hag.1, ?_, ?_⟩
  · intro c hc
    have hc2 : (readGo m true s.bytes_read s.buffered s.allocated s.data).1 = some c := hc
    rw [hc2] at hch
    exact ⟨hch.1, hch.2, hag.2 c hc2⟩
  · intro hc
    have hc2 : (readGo m true s.bytes_read s.buffered s.allocated s.data).1 = none := hc
    rw [hc2] at hch
    exact hch

theorem runTrace_cons (s : Assembler) (op : Op) (ops : List Op) :
    runTrace s (op :: ops) =
      ((runOp s op).1 ++ (runTrace (runOp s op).2 ops).1,
        (runTrace (runOp s op).2 ops).2) := rfl

theorem runOp_ins (s : Assembler) (o : Nat) (bs : List Nat) (a : Nat) :
    runOp s (Op.ins o bs a) = ([], s.insert o bs a) := rfl

theorem runOp_rd (s : Assembler) (m : Nat) :
    runOp s (Op.rd m) = ((s.read m true).1.toList, (s.read m true).2) := rfl

theorem opsAgree_ins {σ : Nat → Nat} {o : Nat} {bs : List Nat} {a : Nat} {ops : List Op}
    (h : opsAgree σ (Op.ins o bs a :: ops) = true) :
    bs = (List.range' o bs.length).map σ ∧ opsAgree σ ops = true := by
  simpa [opsAgree, Bool.and_eq_true, beq_iff_eq] using h

theorem chain_join (σ : Nat → Nat) :
    ∀ (cs : List Chunk) (n : Nat), ChunkChain n cs →
      (∀ c ∈ cs, c.bytes = (List.range' c.offset c.bytes.length).map σ) →
      (cs.map Chunk.bytes).flatten =
        (List.range' n ((cs.map fun c => c.bytes.length).sum)).map σ := by
  intro cs
  induction cs with
  | nil =>
    intro n _ _
    simp
  | cons c rest ih =>
    intro n hch hag
    obtain ⟨hoff, hch2⟩ := hch
    simp only [List.map_cons, List.flatten_cons, List.sum_cons]
    rw [ih (n + c.bytes.length) hch2 (fun q hq => hag q (List.mem_cons_of_mem c hq))]
    rw [Nat.add_comm (c.bytes.length) ((rest.map fun c => c.bytes.length).sum)]
    rw [← List.range'_append_1, List.map_append]
    congr 1
    conv_lhs => rw [hag c (List.mem_cons_self c rest)]
    rw [hoff]

theorem runTrace_ordered_spec (σ : Nat → Nat) :
    ∀ (ops : List Op) (s : Assembler),
      s.state = State.ordered →
      (∀ b ∈ s.data, b.agreesWith σ) →
      opsAgree σ ops = true →
      (runTrace s ops).2.state = State.ordered ∧
      (∀ b ∈ (runTrace s ops).2.data, b.agreesWith σ) ∧
      ChunkChain s.bytes_read (runTrace s ops).1 ∧
      (∀ c ∈ (runTrace s ops).1, c.bytes = (List.range' c.offset c.bytes.length).map σ) ∧
      (runTrace s ops).2.bytes_read =
        s.bytes_read + ((runTrace s ops).1.map fun c => c.bytes.length).sum := by
  intro ops
  induction ops with
  | nil =>
    intro s h1 h2 _
    refine ⟨h1, h2, ?_, ?_, ?_⟩
    · exact trivial
    · intro c hc
      cases hc
    · simp [runTrace]
  | cons op ops ih =>
    intro s h1 h2 h3
    rw [runTrace_cons]
    cases op with
    | ins o bs a =>
      obtain ⟨hbs, hops⟩ := opsAgree_ins h3
      have hins := insert_ordered_spec σ s o bs a h1 hbs h2
      obtain ⟨hihst, hihd, hihc, hihag, hihbr⟩ := ih (s.insert o bs a) hins.1 hins.2.2 hops
      rw [runOp_ins]
      dsimp only
      rw [hins.2.1] at hihc hihbr
      refine ⟨hihst, hihd, ?_, ?_, ?_⟩
      · rw [List.nil_append]
        exact hihc
      · rw [List.nil_append]
        exact hihag
      · rw [List.nil_append]
        exact hihbr
    | rd m =>
      have hops : opsAgree σ ops = true := h3
      have hrd := read_ordered_spec σ s m h2
      obtain ⟨hihst, hihd, hihc, hihag, hihbr⟩ :=
        ih (s.read m true).2 (hrd.1.trans h1) hrd.2.1 hops
      rw [runOp_rd]
      cases hopt : (s.read m true).1 with
      | none =>
        have hbr0 := hrd.2.2.2 hopt
        dsimp only [Option.toList]
        rw [hbr0] at hihc hihbr
        refine ⟨hihst, hihd, ?_, ?_, ?_⟩
        · rw [List.nil_append]
          exact hihc
        · rw [List.nil_append]
          exact hihag
        · rw [List.nil_append]
          exact hihbr
      | some c =>
        obtain ⟨hoff, hbr, hcag⟩ := hrd.2.2.1 c hopt
        dsimp only [Option.toList]
        rw [hbr] at hihc hihbr
        refine ⟨hihst, hihd, ?_, ?_, ?_⟩
        · rw [List.singleton_append]
          exact ⟨hoff, hihc⟩
        · rw [List.singleton_append]
          intro q hq
          rcases List.mem_cons.mp hq with rfl | hq2
          · exact hcag
          · exact hihag q hq2
        · rw [List.singleton_append, hihbr, List.map_cons, List.sum_cons]
          omega

/-- C1: for every interleaving of inserts and ordered reads from a fresh
assembler, where each inserted fragment carries the bytes of the logical
stream `σ` at its offsets, the chunks returned by the ordered reads tile the
stream contiguously from offset 0 — each chunk starts exactly where the
previous one ended (no gap, no byte delivered twice) — and their
concatenation, in call order, is exactly the stream prefix `σ(0..bytes_read)`
consumed so far. -/
theorem ordered_trace_delivers_stream (σ : Nat → Nat) (ops : List Op)
    (h : opsAgree σ ops = true) :
    ChunkChain 0 (runTrace Assembler.new ops).1 ∧
    (∀ c ∈ (runTrace Assembler.new ops).1,
      c.bytes = (List.range' c.offset c.bytes.length).map σ) ∧
    ((runTrace Assembler.new ops).1.map Chunk.bytes).flatten =
      (List.range (runTrace Assembler.new ops).2.bytes_read).map σ := by
  obtain ⟨_, _, hchain, hag, hbr⟩ :=
    runTrace_ordered_spec σ ops Assembler.new rfl (by intro b hb; cases hb) h
  refine ⟨hchain, hag, ?_⟩
  rw [List.range_eq_range', hbr]
  have hj := chain_join σ (runTrace Assembler.new ops).1 0 hchain hag
  have h0 : Assembler.new.bytes_read = 0 := rfl
  rw [h0, Nat.zero_add]
  exact hj

/-- C1 witness: a concrete trace — insert bytes 5, 6, 7 at offset 0, read two
bytes, then read the rest — with the stream `5 + i`. -/
theorem ordered_trace_delivers_stream_witness :
    opsAgree (fun i => 5 + i) [Op.ins 0 [5, 6, 7] 3, Op.rd 2, Op.rd 10] = true ∧
    (ChunkChain 0 (runTrace Assembler.new [Op.ins 0 [5, 6, 7] 3, Op.rd 2, Op.rd 10]).1 ∧
     (∀ c ∈ (runTrace Assembler.new [Op.ins 0 [5, 6, 7] 3, Op.rd 2, Op.rd 10]).1,
       c.bytes = (List.range' c.offset c.bytes.length).map fun i => 5 + i) ∧
     ((runTrace Assembler.new [Op.ins 0 [5, 6, 7] 3, Op.rd 2, Op.rd 10]).1.map
        Chunk.bytes).flatten =
       (List.range
         (runTrace Assembler.new [Op.ins 0 [5, 6, 7] 3, Op.rd 2, Op.rd 10]).2.bytes_read).map
         fun i => 5 + i) :=
  ⟨by decide,
   ordered_trace_delivers_stream (fun i => 5 + i)
     [Op.ins 0 [5, 6, 7] 3, Op.rd 2, Op.rd 10] (by decide)⟩

/-! Size-accounting lemmas for the buffered counter. -/

theorem sumSize_cons (c : Buffer) (l : List Buffer) :
    sumSize (c :: l) = c.size + sumSize l := by
  simp [sumSize]

theorem sumLen_le_sumSize : ∀ (l : List Buffer),
    (∀ b ∈ l, b.bytes.length ≤ b.size) → sumLen l ≤ sumSize l := by
  intro l
  induction l with
  | nil =>
    intro _
    exact Nat.le_refl 0
  | cons c rest ih =>
    intro h
    have h1 := h c (List.mem_cons_self c rest)
    have h2 := ih fun b hb => h b (List.mem_cons_of_mem c hb)
    simp only [sumLen, sumSize, List.map_cons, List.sum_cons] at *
    omega

theorem ensure_ordering_frame (s : Assembler) (o : Bool) :
    (s.ensure_ordering o).2.data = s.data ∧ (s.ensure_ordering o).2.buffered = s.buffered ∧
    (s.ensure_ordering o).2.allocated = s.allocated ∧
    (s.ensure_ordering o).2.bytes_read = s.bytes_read := by
  unfold Assembler.ensure_ordering
  split_ifs <;> exact ⟨rfl, rfl, rfl, rfl⟩

theorem defragStep_fold_size :
    ∀ (l : List Buffer) (woff : Nat) (scratch : List Nat) (out : List Buffer),
      (∀ b ∈ l, b.bytes.length ≤ b.size) →
      (∀ b ∈ out, b.bytes.length ≤ b.size) →
      (sumSize (l.foldl defragStep (woff, scratch, out)).2.2 +
        (l.foldl defragStep (woff, scratch, out)).2.1.length ≤
        sumSize out + scratch.length + sumSize l) ∧
      (∀ b ∈ (l.foldl defragStep (woff, scratch, out)).2.2, b.bytes.length ≤ b.size) := by
  intro l
  induction l with
  | nil =>
    intro woff scratch out _ hout
    exact ⟨Nat.le_refl _, hout⟩
  | cons c rest ih =>
    intro woff scratch out hl hout
    have hc : c.bytes.length ≤ c.size := hl c (List.mem_cons_self c rest)
    have hrest : ∀ b ∈ rest, b.bytes.length ≤ b.size :=
      fun b hb => hl b (List.mem_cons_of_mem c hb)
    rw [List.foldl_cons, defragStep_eq, sumSize_cons]
    by_cases hw : c.size < c.allocation_size
    · rw [if_pos hw]
      by_cases hov : c.offset ≤ woff + scratch.length
      · rw [if_pos hov]
        have hih := ih woff (scratch ++ c.bytes.drop (woff + scratch.length - c.offset)) out
          hrest hout
        refine ⟨?_, hih.2⟩
        have hlen : (scratch ++ c.bytes.drop (woff + scratch.length - c.offset)).length ≤
            scratch.length + c.bytes.length := by
          rw [List.length_append, List.length_drop]
          omega
        omega
      · rw [if_neg hov]
        have hflout : ∀ b ∈ heapPush ⟨woff, scratch, scratch.length, scratch.length⟩ out,
            b.bytes.length ≤ b.size := by
          intro b hb
          rcases mem_heapPush.mp hb with rfl | hb2
          · exact Nat.le_refl _
          · exact hout b hb2
        have hih := ih c.offset c.bytes
          (heapPush ⟨woff, scratch, scratch.length, scratch.length⟩ out) hrest hflout
        refine ⟨?_, hih.2⟩
        rw [sumSize_heapPush] at hih
        dsimp only at hih
        omega
    · rw [if_neg hw]
      have hcout : ∀ b ∈ heapPush c out, b.bytes.length ≤ b.size := by
        intro b hb
        rcases mem_heapPush.mp hb with rfl | hb2
        · exact hc
        · exact hout b hb2
      have hih := ih woff scratch (heapPush c out) hrest hcout
      refine ⟨?_, hih.2⟩
      rw [sumSize_heapPush] at hih
      omega

theorem defragment_K (s : Assembler)
    (h1 : ∀ b ∈ s.data, b.bytes.length ≤ b.size) (h2 : sumSize s.data ≤ s.buffered) :
    (∀ b ∈ s.defragment.data, b.bytes.length ≤ b.size) ∧
    sumSize s.defragment.data ≤ s.defragment.buffered := by
  cases hd : s.data with
  | nil =>
    have he : s.defragment = s := by
      unfold Assembler.defragment
      rw [hd]
    rw [he, hd]
    rw [hd] at h1 h2
    exact ⟨h1, h2⟩
  | cons f rest =>
    rw [hd] at h1 h2
    have hne : s.data ≠ [] := by
      rw [hd]
      exact List.cons_ne_nil f rest
    have hbuf : s.defragment.buffered = s.buffered := (defragment_counters s hne).2.1
    rw [defragment_data s f rest hd, hbuf]
    have hfold := defragStep_fold_size (f :: rest) f.offset [] []
      h1 (by intro b hb; cases hb)
    constructor
    · intro b hb
      rcases mem_heapPush.mp hb with rfl | hb2
      · exact Nat.le_refl _
      · exact hfold.2 b hb2
    · rw [sumSize_heapPush]
      dsimp only
      have hemp : sumSize ([] : List Buffer) = 0 := rfl
      rw [hemp] at hfold
      simp only [List.length_nil] at hfold
      rw [sumSize_cons] at hfold
      rw [sumSize_cons] at h2
      omega

theorem readFinish_K (m br buf alc : Nat) (b : Buffer) (rest : List Buffer)
    (hb : b.bytes.length ≤ b.size)
    (hrest : ∀ q ∈ rest, q.bytes.length ≤ q.size)
    (hsum : b.size + sumSize rest ≤ buf) :
    (∀ q ∈ (readFinish m br buf alc b rest).2.1, q.bytes.length ≤ q.size) ∧
    sumSize (readFinish m br buf alc b rest).2.1 ≤ (readFinish m br buf alc b rest).2.2.1 := by
  unfold readFinish
  by_cases h : m < b.bytes.length
  · rw [if_pos h]
    dsimp only
    constructor
    · intro q hq
      rcases mem_heapPush.mp hq with rfl | hq2
      · dsimp only
        rw [List.length_drop]
        omega
      · exact hrest q hq2
    · rw [sumSize_heapPush]
      dsimp only
      omega
  · rw [if_neg h]
    dsimp only
    refine ⟨hrest, ?_⟩
    omega

theorem readGo_K (m : Nat) (o : Bool) (br : Nat) :
    ∀ (data : List Buffer) (buf alc : Nat),
      (∀ b ∈ data, b.bytes.length ≤ b.size) → sumSize data ≤ buf →
      (∀ b ∈ (readGo m o br buf alc data).2.1, b.bytes.length ≤ b.size) ∧
      sumSize (readGo m o br buf alc data).2.1 ≤ (readGo m o br buf alc data).2.2.1 := by
  intro data
  induction data with
  | nil =>
    intro buf alc h1 h2
    refine ⟨?_, ?_⟩
    · intro b hb
      cases hb
    · exact Nat.le_trans h2 (Nat.le_refl buf)
  | cons b rest ih =>
    intro buf alc h1 h2
    have hb : b.bytes.length ≤ b.size := h1 b (List.mem_cons_self b rest)
    have hrest : ∀ q ∈ rest, q.bytes.length ≤ q.size :=
      fun q hq => h1 q (List.mem_cons_of_mem b hq)
    rw [sumSize_cons] at h2
    cases o with
    | false =>
      simp only [readGo, Bool.false_eq_true, if_false]
      exact readFinish_K m br buf alc b rest hb hrest h2
    | true =>
      simp only [readGo, if_true]
      by_cases hg : br < b.offset
      · rw [if_pos hg]
        dsimp only
        refine ⟨h1, ?_⟩
        rw [sumSize_cons]
        omega
      · rw [if_neg hg]
        by_cases hst : b.offset + b.bytes.length ≤ br
        · rw [if_pos hst]
          exact ih (buf - b.size) (alc - b.allocation_size) hrest (by omega)
        · rw [if_neg hst]
          refine readFinish_K m br buf alc (trimBuffer b (br - b.offset)) rest ?_ hrest ?_
          · rw [trimBuffer_eq]
            dsimp only
            rw [List.length_drop]
            omega
          · rw [trimBuffer_eq]
            dsimp only
            omega

theorem pushBuffer_K (s : Assembler) (nb : Buffer) (hnb : nb.bytes.length ≤ nb.size)
    (h1 : ∀ b ∈ s.data, b.bytes.length ≤ b.size) (h2 : sumSize s.data ≤ s.buffered) :
    (∀ b ∈ (pushBuffer s nb).data, b.bytes.length ≤ b.size) ∧
    sumSize (pushBuffer s nb).data ≤ (pushBuffer s nb).buffered := by
  dsimp only [pushBuffer]
  constructor
  · intro b hb
    rcases mem_heapPush.mp hb with rfl | hb2
    · exact hnb
    · exact h1 b hb2
  · rw [sumSize_heapPush]
    omega

theorem dedupLoop_K (alloc : Nat) :
    ∀ (dups : List (Nat × Nat)) (s : Assembler) (offset : Nat) (bytes : List Nat),
      (∀ b ∈ s.data, b.bytes.length ≤ b.size) → sumSize s.data ≤ s.buffered →
      (∀ b ∈ (dedupLoop alloc s offset bytes dups).1.data, b.bytes.length ≤ b.size) ∧
      sumSize (dedupLoop alloc s offset bytes dups).1.data ≤
        (dedupLoop alloc s offset bytes dups).1.buffered := by
  intro dups
  induction dups with
  | nil =>
    intro s offset bytes h1 h2
    exact ⟨h1, h2⟩
  | cons d rest ih =>
    intro s offset bytes h1 h2
    obtain ⟨ds, de⟩ := d
    simp only [dedupLoop]
    by_cases hlt : offset < ds
    · rw [if_pos hlt]
      dsimp only
      have hpk := pushBuffer_K s
        ⟨offset, bytes.take (ds - offset), (bytes.take (ds - offset)).length, alloc⟩
        (Nat.le_refl _) h1 h2
      exact ih _ de _ hpk.1 hpk.2
    · rw [if_neg hlt]
      dsimp only
      exact ih s de _ h1 h2

theorem finishInsert_K (s1 : Assembler) (o1 : Nat) (b1 : List Nat) (alloc : Nat)
    (h1 : ∀ b ∈ s1.data, b.bytes.length ≤ b.size) (h2 : sumSize s1.data ≤ s1.buffered) :
    (∀ b ∈ (finishInsert s1 o1 b1 alloc).data, b.bytes.length ≤ b.size) ∧
    sumSize (finishInsert s1 o1 b1 alloc).data ≤ (finishInsert s1 o1 b1 alloc).buffered := by
  by_cases hb : b1.isEmpty = true
  · have hfi : finishInsert s1 o1 b1 alloc = s1 := by
      unfold finishInsert
      rw [if_pos hb]
    rw [hfi]
    exact ⟨h1, h2⟩
  · have hb2 : b1.isEmpty = false := by
      revert hb
      cases b1.isEmpty <;> simp
    simp only [finishInsert, hb2, Bool.false_eq_true, if_false]
    have hpk := pushBuffer_K s1 ⟨o1, b1, b1.length, alloc⟩ (Nat.le_refl _) h1 h2
    by_cases htr : defragTrigger (pushBuffer s1 ⟨o1, b1, b1.length, alloc⟩) = true
    · rw [if_pos htr]
      exact defragment_K _ hpk.1 hpk.2
    · rw [if_neg htr]
      exact hpk

theorem insert_K (s : Assembler) (offset : Nat) (bytes : List Nat) (alloc : Nat)
    (h1 : ∀ b ∈ s.data, b.bytes.length ≤ b.size) (h2 : sumSize s.data ≤ s.buffered) :
    (∀ b ∈ (s.insert offset bytes alloc).data, b.bytes.length ≤ b.size) ∧
    sumSize (s.insert offset bytes alloc).data ≤ (s.insert offset bytes alloc).buffered := by
  rw [insert_eq]
  have hph : (∀ b ∈ (insertPhase s offset bytes alloc).1.data, b.bytes.length ≤ b.size) ∧
      sumSize (insertPhase s offset bytes alloc).1.data ≤
        (insertPhase s offset bytes alloc).1.buffered := by
    unfold insertPhase
    cases hst : s.state with
    | ordered =>
      dsimp only
      split_ifs <;> exact ⟨h1, h2⟩
    | unordered recvd =>
      dsimp only
      exact dedupLoop_K alloc _ _ offset bytes h1 h2
  exact finishInsert_K _ _ _ alloc hph.1 hph.2

theorem reachable_K (s : Assembler) (h : Reachable s) :
    (∀ b ∈ s.data, b.bytes.length ≤ b.size) ∧ sumSize s.data ≤ s.buffered := by
  induction h with
  | new =>
    refine ⟨?_, Nat.le_refl 0⟩
    intro b hb
    cases hb
  | ins offset bytes alloc _ _ ih => exact insert_K _ offset bytes alloc ih.1 ih.2
  | rd m o _ ih => exact readGo_K m o _ _ _ _ ih.1 ih.2
  | ensure o _ ih =>
    rename_i s2 _
    have hf := ensure_ordering_frame s2 o
    rw [hf.1, hf.2.1]
    exact ih
  | setBR n _ ih => exact ih
  | clr _ ih =>
    refine ⟨?_, Nat.le_refl 0⟩
    intro b hb
    cases hb

/-- C8 (amended): in every reachable state `buffered` is at least the total
usable bytes of the store — equality can fail because reads that split or trim
a fragment in place shrink its usable bytes without touching `buffered`, whose
debits happen only at removal and use the push-time `size`; accordingly every
stored fragment's usable length is bounded by its recorded size and `buffered`
also dominates the sum of recorded sizes. -/
theorem reachable_buffered_ge_usable (s : Assembler) (h : Reachable s) :
    sumLen s.data ≤ s.buffered ∧ sumSize s.data ≤ s.buffered ∧
    ∀ b ∈ s.data, b.bytes.length ≤ b.size := by
  obtain ⟨h1, h2⟩ := reachable_K s h
  exact ⟨Nat.le_trans (sumLen_le_sumSize s.data h1) h2, h2, h1⟩

/-- C8 witness: the invariant at the concrete split-read state, where the
inequality is strict (1 usable byte, buffered 2). -/
theorem reachable_buffered_ge_usable_witness :
    sumLen splitState.data ≤ splitState.buffered ∧
    sumSize splitState.data ≤ splitState.buffered ∧
    ∀ b ∈ splitState.data, b.bytes.length ≤ b.size :=
  reachable_buffered_ge_usable splitState
    (Reachable.rd 1 true (Reachable.ins 0 [97, 98] 2 Reachable.new (by decide)))

/-! Lemmas for the no-zero-fragment preservation. -/

theorem overlapsIn_mem (a b : Nat) : ∀ (rs : RangeSet),
    ∀ d ∈ RangeSet.overlapsIn rs a b, a ≤ d.1 ∧ d.1 < d.2 ∧ d.2 ≤ b := by
  intro rs
  induction rs with
  | nil =>
    intro d hd
    cases hd
  | cons p rest ih =>
    intro d hd
    rw [RangeSet.overlapsIn] at hd
    by_cases hc : max p.1 a < min p.2 b
    · rw [if_pos hc] at hd
      rcases List.mem_cons.mp hd with rfl | hd2
      · refine ⟨Nat.le_max_right p.1 a, hc, Nat.min_le_right p.2 b⟩
      · exact ih d hd2
    · rw [if_neg hc] at hd
      exact ih d hd

theorem overlapsIn_source (a b : Nat) : ∀ (rs : RangeSet),
    ∀ d ∈ RangeSet.overlapsIn rs a b, ∃ q ∈ rs, q.1 ≤ d.1 ∧ d.2 ≤ q.2 := by
  intro rs
  induction rs with
  | nil =>
    intro d hd
    cases hd
  | cons p rest ih =>
    intro d hd
    rw [RangeSet.overlapsIn] at hd
    by_cases hc : max p.1 a < min p.2 b
    · rw [if_pos hc] at hd
      rcases List.mem_cons.mp hd with rfl | hd2
      · exact ⟨p, List.mem_cons_self p rest, Nat.le_max_left p.1 a, Nat.min_le_left p.2 b⟩
      · obtain ⟨q, hq, hq1, hq2⟩ := ih d hd2
        exact ⟨q, List.mem_cons_of_mem p hq, hq1, hq2⟩
    · rw [if_neg hc] at hd
      obtain ⟨q, hq, hq1, hq2⟩ := ih d hd
      exact ⟨q, List.mem_cons_of_mem p hq, hq1, hq2⟩

theorem overlapsIn_pairwise (a b : Nat) : ∀ (rs : RangeSet),
    rs.Pairwise (fun p q => p.2 < q.1) →
    (RangeSet.overlapsIn rs a b).Pairwise (fun d e => d.2 ≤ e.1) := by
  intro rs
  induction rs with
  | nil =>
    intro _
    exact List.Pairwise.nil
  | cons p rest ih =>
    intro hpw
    rw [List.pairwise_cons] at hpw
    rw [RangeSet.overlapsIn]
    by_cases hc : max p.1 a < min p.2 b
    · rw [if_pos hc]
      refine List.Pairwise.cons ?_ (ih hpw.2)
      intro e he
      obtain ⟨q, hq, hq1, _⟩ := overlapsIn_source a b rest e he
      have := hpw.1 q hq
      dsimp only
      omega
    · rw [if_neg hc]
      exact ih hpw.2

theorem dedupLoop_noZero (alloc : Nat) :
    ∀ (dups : List (Nat × Nat)) (s : Assembler) (offset : Nat) (bytes : List Nat),
      (∀ b ∈ s.data, 0 < b.bytes.length) →
      (∀ d ∈ dups, offset ≤ d.1 ∧ d.1 < d.2 ∧ d.2 ≤ offset + bytes.length) →
      dups.Pairwise (fun d e => d.2 ≤ e.1) →
      ∀ b ∈ (dedupLoop alloc s offset bytes dups).1.data, 0 < b.bytes.length := by
  intro dups
  induction dups with
  | nil =>
    intro s offset bytes h _ _
    exact h
  | cons d rest ih =>
    intro s offset bytes h hdom hpw
    obtain ⟨ds, de⟩ := d
    obtain ⟨hd1, hd2, hd3⟩ := hdom (ds, de) (List.mem_cons_self _ rest)
    rw [List.pairwise_cons] at hpw
    have hdomrest : ∀ e ∈ rest, e.1 < e.2 ∧ e.2 ≤ offset + bytes.length ∧ de ≤ e.1 := by
      intro e he
      obtain ⟨_, he2, he3⟩ := hdom e (List.mem_cons_of_mem _ he)
      exact ⟨he2, he3, hpw.1 e he⟩
    simp only [dedupLoop]
    by_cases hlt : offset < ds
    · rw [if_pos hlt]
      dsimp only
      refine ih _ de _ ?_ ?_ hpw.2
      · intro b hb
        rcases mem_heapPush.mp hb with rfl | hb2
        · dsimp only
          rw [List.length_take]
          omega
        · exact h b hb2
      · intro e he
        obtain ⟨he1, he2, he3⟩ := hdomrest e he
        rw [List.length_drop, List.length_drop]
        omega
    · rw [if_neg hlt]
      dsimp only
      refine ih s de _ h ?_ hpw.2
      intro e he
      obtain ⟨he1, he2, he3⟩ := hdomrest e he
      rw [List.length_drop]
      omega

theorem readFinish_noZero (m br buf alc : Nat) (b : Buffer) (rest : List Buffer)
    (hrest : ∀ q ∈ rest, 0 < q.bytes.length) :
    ∀ q ∈ (readFinish m br buf alc b rest).2.1, 0 < q.bytes.length := by
  unfold readFinish
  by_cases h : m < b.bytes.length
  · rw [if_pos h]
    dsimp only
    intro q hq
    rcases mem_heapPush.mp hq with rfl | hq2
    · dsimp only
      rw [List.length_drop]
      omega
    · exact hrest q hq2
  · rw [if_neg h]
    exact hrest

theorem readGo_noZero (m : Nat) (o : Bool) (br : Nat) :
    ∀ (data : List Buffer) (buf alc : Nat),
      (∀ b ∈ data, 0 < b.bytes.length) →
      ∀ b ∈ (readGo m o br buf alc data).2.1, 0 < b.bytes.length := by
  intro data
  induction data with
  | nil =>
    intro buf alc _ b hb
    cases hb
  | cons b rest ih =>
    intro buf alc h
    have hrest : ∀ q ∈ rest, 0 < q.bytes.length :=
      fun q hq => h q (List.mem_cons_of_mem b hq)
    cases o with
    | false =>
      simp only [readGo, Bool.false_eq_true, if_false]
      exact readFinish_noZero m br buf alc b rest hrest
    | true =>
      simp only [readGo, if_true]
      by_cases hg : br < b.offset
      · rw [if_pos hg]
        exact h
      · rw [if_neg hg]
        by_cases hst : b.offset + b.bytes.length ≤ br
        · rw [if_pos hst]
          exact ih _ _ hrest
        · rw [if_neg hst]
          exact readFinish_noZero m br buf alc (trimBuffer b (br - b.offset)) rest hrest

/-- C4 (amended): the public operations preserve the absence of zero-length
fragments as long as defragmentation is not invoked — `read` (both modes),
`clear`, `ensure_ordering`, `set_bytes_read`, and any `insert` (against a
well-formed seen set) whose over-allocation trigger does not fire.  An insert
that does trigger defragmentation can push a zero-length fragment (see the
counterexample), so the invariant does not hold in every reachable state. -/
theorem ops_preserve_no_zero_fragments (s : Assembler) (m n offset alloc : Nat)
    (o : Bool) (bytes : List Nat) (h : noZeroFrag s) :
    noZeroFrag ((s.read m o).2) ∧
    noZeroFrag s.clear ∧
    noZeroFrag ((s.ensure_ordering o).2) ∧
    noZeroFrag (s.set_bytes_read n) ∧
    (StateWF s.state → insertTriggers s offset bytes alloc = false →
      noZeroFrag (s.insert offset bytes alloc)) := by
  refine ⟨?_, ?_, ?_, ?_, ?_⟩
  · exact readGo_noZero m o s.bytes_read s.data s.buffered s.allocated h
  · intro b hb
    cases hb
  · intro b hb
    rw [(ensure_ordering_frame s o).1] at hb
    exact h b hb
  · exact h
  · intro hwf htr
    have hphaseZ : ∀ b ∈ (insertPhase s offset bytes alloc).1.data, 0 < b.bytes.length := by
      unfold insertPhase
      cases hst : s.state with
      | ordered =>
        dsimp only
        split_ifs <;> exact h
      | unordered recvd =>
        dsimp only
        rw [hst] at hwf
        refine dedupLoop_noZero alloc _ _ offset bytes h ?_ ?_
        · exact overlapsIn_mem offset (offset + bytes.length) recvd
        · exact overlapsIn_pairwise offset (offset + bytes.length) recvd hwf.1
    rw [insert_eq]
    by_cases hb : (insertPhase s offset bytes alloc).2.2.isEmpty = true
    · have hfi : finishInsert (insertPhase s offset bytes alloc).1
          (insertPhase s offset bytes alloc).2.1
          (insertPhase s offset bytes alloc).2.2 alloc =
          (insertPhase s offset bytes alloc).1 := by
        unfold finishInsert
        rw [if_pos hb]
      rw [hfi]
      exact hphaseZ
    · have hb2 : (insertPhase s offset bytes alloc).2.2.isEmpty = false := by
        revert hb
        cases (insertPhase s offset bytes alloc).2.2.isEmpty <;> simp
      have htr2 : defragTrigger (pushBuffer (insertPhase s offset bytes alloc).1
          ⟨(insertPhase s offset bytes alloc).2.1, (insertPhase s offset bytes alloc).2.2,
            (insertPhase s offset bytes alloc).2.2.length, alloc⟩) = false := by
        simp only [insertTriggers] at htr
        rw [hb2] at htr
        simpa using htr
      simp only [finishInsert, hb2, Bool.false_eq_true, if_false, htr2]
      intro b hb3
      rcases mem_heapPush.mp hb3 with rfl | hb4
      · dsimp only
        have hne : (insertPhase s offset bytes alloc).2.2 ≠ [] := by
          intro hcon
          rw [hcon] at hb2
          cases hb2
        exact List.length_pos.mpr hne
      · exact hphaseZ b hb4

/-- C4 witness: the preservation statement at the two-fragment ordered state,
with a non-triggering insert. -/
theorem ops_preserve_no_zero_fragments_witness :
    noZeroFrag ((twoFrag.read 1 true).2) ∧
    noZeroFrag twoFrag.clear ∧
    noZeroFrag ((twoFrag.ensure_ordering true).2) ∧
    noZeroFrag (twoFrag.set_bytes_read 7) ∧
    (StateWF twoFrag.state → insertTriggers twoFrag 4 [101] 1 = false →
      noZeroFrag (twoFrag.insert 4 [101] 1)) :=
  ops_preserve_no_zero_fragments twoFrag 1 7 4 1 true [101]
    (by unfold noZeroFrag; decide)
